import Mathlib

/-!
# Verification of the Leaflet flyer-route planner backend

Shallow embedding of the core pipeline of the `backend/` package
(`main.py`, `routing.py`, `partition.py`, `density.py`, `export.py`,
`area.py`) in Lean 4, together with theorems settling the frozen claims
about the natural-language specification.

Modelling conventions:
* Python ints are `Nat`/`Int`; Python floats are modelled as exact `ℚ`
  (or `ℝ` for trigonometric geometry); all arithmetic claims are settled
  in exact arithmetic, which is what the spec's formulas denote.
* `networkx.MultiDiGraph` is modelled by `PGraph`: an ordered node list
  with `(id, y=lat, x=lng)` data and an ordered edge list of
  `(u, v, key, data)` records; `directed = false` models an undirected
  (multi)graph view.
* Python `set` objects are modelled by `Finset`.
* Fallible code is modelled with `Except`/`Option`.
-/

namespace Leaflet

/-- Attribute record of one road edge, after ingest
(`network.fetch_road_network` guarantees `length`, `name`, `highway`;
`density` adds `estimated_addresses`). -/
structure EdgeData where
  length : ℚ
  name : String
  highway : String
  addresses : ℕ
  deriving DecidableEq, Repr

/-- One edge of a `networkx` multigraph: endpoints, parallel-edge key and
attribute data, in insertion order inside `PGraph.edges`. -/
structure PEdge where
  u : ℕ
  v : ℕ
  key : ℕ
  data : EdgeData
  deriving DecidableEq, Repr

/-- A `networkx` graph: `directed = true` models `MultiDiGraph`,
`directed = false` the undirected `MultiGraph` view.  Nodes carry
`(id, y=lat, x=lng)`. -/
structure PGraph where
  directed : Bool
  nodes : List (ℕ × ℚ × ℚ)
  edges : List PEdge
  deriving DecidableEq, Repr

/-- Node identifiers, in insertion order (`G.nodes`). -/
def PGraph.nodeIds (G : PGraph) : List ℕ := G.nodes.map (·.1)

/-- All edge endpoints, deduplicated in first-occurrence order. -/
def PGraph.endpts (G : PGraph) : List ℕ :=
  (G.edges.flatMap fun e => [e.u, e.v]).dedup

/-- Embeds `G.neighbors(u)`: successors for a directed graph, all adjacent nodes
for an undirected one.  (The `networkx` adjacency-dict order is an
implementation detail; this deterministic edge-list order models it.) -/
def PGraph.nbors (G : PGraph) (u : ℕ) : List ℕ :=
  if G.directed then
    (G.edges.filterMap fun e => if e.u = u then some e.v else none).dedup
  else
    ((G.edges.filterMap fun e => if e.u = u then some e.v else none) ++
     (G.edges.filterMap fun e => if e.v = u then some e.u else none)).dedup

/-- The same graph viewed with directions forgotten (used for weak
connectivity; distinct from `toUndirectedMerged`, which models
`MultiDiGraph.to_undirected()` including reciprocal-edge merging). -/
def PGraph.asUndirected (G : PGraph) : PGraph :=
  { G with directed := false }

/-- Embeds `tuple(sorted([u, v]))`: the unordered key identifying an edge's
endpoint pair in `generate_simple_route.visited_edges`. -/
def pairKey (u v : ℕ) : ℕ × ℕ := if u ≤ v then (u, v) else (v, u)

theorem pairKey_comm (u v : ℕ) : pairKey u v = pairKey v u := by
  unfold pairKey
  rcases Nat.le_total u v with h | h
  · rcases Nat.lt_or_ge u v with h' | h'
    · simp [h, Nat.not_le.mpr h']
    · have : u = v := Nat.le_antisymm h h'
      simp [this]
  · rcases Nat.lt_or_ge v u with h' | h'
    · simp [h, Nat.not_le.mpr h']
    · have : v = u := Nat.le_antisymm h h'
      simp [this]

/-! ## Flyer allocation (`main.generate_routes`, steps 5 and "fix rounding")

`main.py` lines 155–173: given the per-zone `estimated_addresses` sums
(each a non-negative integer, from `get_zone_stats`) and the request's
`total_flyers`, compute `flyers_per_route` and absorb the rounding
difference into route 0.  Python's `int(x / y)` on non-negative exact
values is floor division, so `Nat` division models it. -/

/-- Embeds `flyers_per_route` before the rounding fix: proportional shares, or
an even split when every zone has zero addresses. -/
def flyersBase (totalFlyers : ℕ) (zoneAddrs : List ℕ) : List ℕ :=
  let T := zoneAddrs.sum
  zoneAddrs.map fun a =>
    if 0 < T then totalFlyers * a / T else totalFlyers / zoneAddrs.length

/-- Embeds `flyers_per_route` after `flyers_per_route[0] += diff`
(the `if diff != 0` guard in the source is immaterial). -/
def flyersPerRoute (totalFlyers : ℕ) (zoneAddrs : List ℕ) : List ℕ :=
  let base := flyersBase totalFlyers zoneAddrs
  let diff := totalFlyers - base.sum
  match base with
  | [] => []
  | b :: rest => (b + diff) :: rest

theorem flyersBase_length (F : ℕ) (addrs : List ℕ) :
    (flyersBase F addrs).length = addrs.length := by
  simp [flyersBase]

theorem nat_div_sum_le (c F : ℕ) (l : List ℕ) :
    (l.map fun a => F * a / c).sum ≤ F * l.sum / c := by
  induction l with
  | nil => simp
  | cons x xs ih =>
    rcases Nat.eq_zero_or_pos c with hc | hc
    · simp [hc]
    · have h1 : F * x / c + (xs.map fun a => F * a / c).sum
          ≤ F * x / c + F * xs.sum / c := Nat.add_le_add_left ih _
      have h2 : F * x / c + F * xs.sum / c ≤ (F * x + F * xs.sum) / c := by
        rw [Nat.le_div_iff_mul_le hc, Nat.add_mul]
        exact Nat.add_le_add (Nat.div_mul_le_self _ _) (Nat.div_mul_le_self _ _)
      have h3 : F * x + F * xs.sum = F * (x + xs.sum) := by ring
      rw [h3] at h2
      simpa using le_trans h1 h2

theorem nat_const_div_sum_le (F n : ℕ) (l : List ℕ) :
    (l.map fun _ => F / n).sum ≤ l.length * (F / n) := by
  induction l with
  | nil => simp
  | cons x xs ih =>
    have := Nat.add_le_add_left ih (F / n)
    simp only [List.map_cons, List.sum_cons, List.length_cons, Nat.succ_mul]
    omega

theorem flyersBase_sum_le (F : ℕ) (addrs : List ℕ) :
    (flyersBase F addrs).sum ≤ F := by
  unfold flyersBase
  by_cases hT : 0 < addrs.sum
  · simp only [hT, if_true]
    calc (addrs.map fun a => F * a / addrs.sum).sum
        ≤ F * addrs.sum / addrs.sum := nat_div_sum_le _ _ _
      _ = F := Nat.mul_div_cancel F hT
  · simp only [hT, if_false]
    rcases Nat.eq_zero_or_pos addrs.length with h | h
    · have : addrs = [] := List.eq_nil_of_length_eq_zero h
      simp [this]
    · calc (addrs.map fun _ => F / addrs.length).sum
          ≤ addrs.length * (F / addrs.length) := nat_const_div_sum_le _ _ _
        _ = F / addrs.length * addrs.length := Nat.mul_comm _ _
        _ ≤ F := Nat.div_mul_le_self _ _

/-- C1 (flyer conservation).  Whenever the partition yields at least
one zone, the `assigned_flyers` values computed by the orchestrator sum
to exactly `total_flyers`; every route `i ≥ 1` receives
`⌊total_flyers · addrsᵢ / Σ addrs⌋` (or `⌊total_flyers / #zones⌋` when
every zone has zero addresses), and route 0 receives its proportional
share plus the whole rounding difference. -/
theorem C1_flyer_conservation (F : ℕ) (addrs : List ℕ) (h : addrs ≠ []) :
    (flyersPerRoute F addrs).sum = F ∧
    (∀ i, 1 ≤ i → (flyersPerRoute F addrs)[i]? = (flyersBase F addrs)[i]?) ∧
    (flyersPerRoute F addrs).head? =
      ((flyersBase F addrs).head?.map
        (fun b => b + (F - (flyersBase F addrs).sum))) := by
  have hb : flyersBase F addrs ≠ [] := by
    intro hcontra
    have := flyersBase_length F addrs
    rw [hcontra] at this
    exact h (List.eq_nil_of_length_eq_zero this.symm)
  obtain ⟨b, rest, hcons⟩ := List.exists_cons_of_ne_nil hb
  have hsum : (flyersBase F addrs).sum ≤ F := flyersBase_sum_le F addrs
  refine ⟨?_, ?_, ?_⟩
  · show (flyersPerRoute F addrs).sum = F
    unfold flyersPerRoute
    rw [hcons] at hsum ⊢
    simp only [List.sum_cons] at hsum ⊢
    omega
  · intro i hi
    unfold flyersPerRoute
    rw [hcons]
    match i, hi with
    | (j+1), _ => simp
  · unfold flyersPerRoute
    rw [hcons]
    simp

/-- Witness for C1 at a concrete input: three zones with addresses
`[3, 5, 2]` and 100 flyers give `[32, 50, 20]`, summing to 100. -/
theorem C1_flyer_conservation_witness :
    ([3, 5, 2] : List ℕ) ≠ [] ∧ (flyersPerRoute 100 [3, 5, 2]).sum = 100 :=
  ⟨by decide, (C1_flyer_conservation 100 [3, 5, 2] (by decide)).1⟩

/-! ## Google-Maps URL encoder (`export.generate_google_maps_url`)

`export.py` lines 107–143.  A waypoint is a `(lat, lng)` pair of exact
rationals; the URL is modelled structurally (origin, `waypoints=`
parameter, destination, travel mode) since the claim counts the encoded
coordinate points. -/

/-- A `(lat, lng)` waypoint. -/
abbrev GPoint := ℚ × ℚ

/-- Python `l[::st]` for a stride `st ≥ 1`: every `st`-th element
starting at index 0. -/
def sliceStep (l : List GPoint) (st : ℕ) : List GPoint :=
  (l.enum.filter fun p => p.1 % st = 0).map (·.2)

/-- The subsampling step of `generate_google_maps_url`: with
`max_wp = 23`, lists longer than `max_wp + 2` are stride-sampled
(`waypoints[::step][:max_wp]` with `step = len(waypoints) // max_wp`);
shorter lists pass through unchanged. -/
def gmapsSampled (waypoints : List GPoint) : List GPoint :=
  if waypoints.length > 23 + 2 then
    (sliceStep waypoints (waypoints.length / 23)).take 23
  else waypoints

/-- The coordinate content of the generated directions URL. -/
structure GUrl where
  origin : GPoint
  waypointsParam : List GPoint
  destination : GPoint
  travelmode : String
  deriving DecidableEq, Repr

/-- Embeds `generate_google_maps_url`: `none` models the empty-string return for
fewer than 2 waypoints; otherwise origin = first sampled point,
destination = last sampled point, and the `waypoints=` parameter holds
the interior sampled points when more than 2 remain. -/
def generateGoogleMapsUrl (waypoints : List GPoint) (travelMode : String) :
    Option GUrl :=
  if waypoints.length < 2 then none
  else
    match gmapsSampled waypoints with
    | [] => none
    | a :: rest =>
      some { origin := a
             waypointsParam := if 2 < (a :: rest).length then rest.dropLast else []
             destination := rest.getLastD a
             travelmode := if travelMode = "walking" then "walking" else "driving" }

/-- The coordinate points encoded in the URL, in order. -/
def encodedPoints : Option GUrl → List GPoint
  | none => []
  | some u => u.origin :: (u.waypointsParam ++ [u.destination])

theorem sliceStep_ne_nil (w : GPoint) (ws : List GPoint) (st : ℕ) :
    sliceStep (w :: ws) st ≠ [] := by
  unfold sliceStep
  rw [List.enum_cons]
  rw [List.filter_cons_of_pos (by simp)]
  intro hcontra
  simp at hcontra

theorem gmapsSampled_ne_nil (wp : List GPoint) (h2 : 2 ≤ wp.length) :
    gmapsSampled wp ≠ [] := by
  obtain ⟨w, ws, hw⟩ : ∃ w ws, wp = w :: ws := by
    cases wp with
    | nil => simp at h2
    | cons w ws => exact ⟨w, ws, rfl⟩
  subst hw
  unfold gmapsSampled
  by_cases hb : (w :: ws).length > 23 + 2
  · rw [if_pos hb]
    intro hnil
    have h0 : sliceStep (w :: ws) ((w :: ws).length / 23) = [] := by
      cases hsl : sliceStep (w :: ws) ((w :: ws).length / 23) with
      | nil => rfl
      | cons a t =>
        rw [hsl] at hnil
        simp [List.take] at hnil
    exact sliceStep_ne_nil w ws _ h0
  · rw [if_neg hb]
    exact List.cons_ne_nil w ws

theorem encodedPoints_length (waypoints : List GPoint) (tm : String)
    (h2 : 2 ≤ waypoints.length) :
    (encodedPoints (generateGoogleMapsUrl waypoints tm)).length
      = max 2 (gmapsSampled waypoints).length := by
  obtain ⟨a, rest, hs⟩ :=
    List.exists_cons_of_ne_nil (gmapsSampled_ne_nil waypoints h2)
  have hlt : ¬ waypoints.length < 2 := by omega
  have hurl : generateGoogleMapsUrl waypoints tm =
      some { origin := a
             waypointsParam := if 2 < (a :: rest).length then rest.dropLast else []
             destination := rest.getLastD a
             travelmode := if tm = "walking" then "walking" else "driving" } := by
    unfold generateGoogleMapsUrl
    rw [if_neg hlt, hs]
  rw [hurl, hs]
  simp only [encodedPoints, List.length_cons, List.length_append, List.length_nil]
  by_cases h3 : 2 < rest.length + 1
  · rw [if_pos (by simpa using h3)]
    have := List.length_dropLast rest
    omega
  · rw [if_neg (by simpa using h3)]
    simp only [List.length_nil]
    omega

/-- The claim "at most 23 encoded coordinate points" fails: a route with
24 waypoints is below the `> 25` sampling threshold, so all 24 points
are encoded in the URL. -/
theorem C4_counterexample :
    2 ≤ (List.replicate 24 ((0 : ℚ), (0 : ℚ))).length ∧
    ¬ (encodedPoints (generateGoogleMapsUrl
        (List.replicate 24 ((0 : ℚ), (0 : ℚ))) "walking")).length ≤ 23 := by
  constructor
  · decide
  · decide

/-- C4 (amended).  For every waypoint list with at least 2 points the
URL encodes at most **25** coordinate points (origin, at most 23
intermediates, destination); lists longer than 25 are reduced by
stride-sampling to at most 23 encoded points. -/
theorem C4_waypoint_limit (waypoints : List GPoint) (tm : String)
    (h2 : 2 ≤ waypoints.length) :
    (encodedPoints (generateGoogleMapsUrl waypoints tm)).length ≤ 25 ∧
    (25 < waypoints.length →
      (encodedPoints (generateGoogleMapsUrl waypoints tm)).length ≤ 23) := by
  have hlen := encodedPoints_length waypoints tm h2
  constructor
  · rw [hlen]
    unfold gmapsSampled
    by_cases h : waypoints.length > 23 + 2
    · simp only [h, if_true]
      have := List.length_take 23 (sliceStep waypoints (waypoints.length / 23))
      omega
    · simp only [h, if_false]
      omega
  · intro h25
    rw [hlen]
    unfold gmapsSampled
    have h : waypoints.length > 23 + 2 := by omega
    simp only [h, if_true]
    have := List.length_take 23 (sliceStep waypoints (waypoints.length / 23))
    omega

/-- Witness for C4 at a concrete input: a 30-point route is above the
sampling threshold (`30 / 23 = 1`, so the first 23 points are kept),
leaving at most 23 encoded points. -/
theorem C4_waypoint_limit_witness :
    2 ≤ (List.replicate 30 ((0 : ℚ), (0 : ℚ))).length ∧
    25 < (List.replicate 30 ((0 : ℚ), (0 : ℚ))).length ∧
    (encodedPoints (generateGoogleMapsUrl
      (List.replicate 30 ((0 : ℚ), (0 : ℚ))) "walking")).length ≤ 23 := by
  refine ⟨by decide, by decide, ?_⟩
  exact (C4_waypoint_limit (List.replicate 30 ((0 : ℚ), (0 : ℚ)))
    "walking" (by decide)).2 (by decide)

/-! ## Circle approximation (`area.create_circle_polygon`)

`area.py` lines 9–34.  The function builds the `n`-gon directly — it has
**no** validation branch, so it can never fail; the error channel below
exists only so the C5 claim ("fails with `InvalidArea` if r ≤ 0 or
|lat₀| > 90") can be stated.  Coordinates are real-valued; Python floats
are modelled by exact reals (the claim concerns control flow and the
vertex formula, not rounding). -/

/-- The error kind the specification names for bad areas. -/
inductive AreaError where
  | invalidArea
  deriving DecidableEq, Repr

/-- Vertex `i` of the circle approximation, as computed by the source:
`angle = 2π·i/n`, equirectangular placement, emitted in shapely's
`(x, y) = (lng, lat)` order. -/
noncomputable def circleVertex (centerLat centerLng radiusM : ℝ) (n i : ℕ) : ℝ × ℝ :=
  let angle := 2 * Real.pi * i / n
  let latDegPerM := 1 / 111320
  let lngDegPerM := 1 / (111320 * Real.cos (centerLat * Real.pi / 180))
  let lat := centerLat + radiusM * Real.sin angle * latDegPerM
  let lng := centerLng + radiusM * Real.cos angle * lngDegPerM
  (lng, lat)

/-- Embeds `create_circle_polygon`: returns the `n`-gon for every input —
the source contains no `raise` and no radius or latitude check. -/
noncomputable def createCirclePolygon (centerLat centerLng radiusM : ℝ)
    (numPoints : ℕ) : Except AreaError (List (ℝ × ℝ)) :=
  Except.ok ((List.range numPoints).map (circleVertex centerLat centerLng radiusM numPoints))

/-- The claim "fails with `InvalidArea` whenever r ≤ 0" is false: at
radius −1 (and any center) the function succeeds and returns the 64-gon;
no validation exists in `create_circle_polygon` or its caller. -/
theorem C5_counterexample :
    ((-1 : ℝ) ≤ 0) ∧
    createCirclePolygon 0 0 (-1) 64 ≠ Except.error AreaError.invalidArea := by
  refine ⟨by norm_num, ?_⟩
  unfold createCirclePolygon
  intro h
  exact Except.noConfusion h

/-- C5 (amended).  `create_circle_polygon` performs no validation:
for **every** center and radius (including r ≤ 0 and |lat₀| > 90) it
returns, without error, the `n`-gon whose vertex `i` lies at angle
`2π·i/n` under the equirectangular placement. -/
theorem C5_circle_no_validation (centerLat centerLng radiusM : ℝ) (n : ℕ) :
    (∀ e, createCirclePolygon centerLat centerLng radiusM n ≠ Except.error e) ∧
    ∃ pts, createCirclePolygon centerLat centerLng radiusM n = Except.ok pts ∧
      pts.length = n ∧
      ∀ i, i < n → pts[i]? = some
        (centerLng + radiusM * Real.cos (2 * Real.pi * i / n) *
            (1 / (111320 * Real.cos (centerLat * Real.pi / 180))),
         centerLat + radiusM * Real.sin (2 * Real.pi * i / n) * (1 / 111320)) := by
  refine ⟨?_, ?_⟩
  · intro e h
    unfold createCirclePolygon at h
    exact Except.noConfusion h
  · refine ⟨_, rfl, by simp, ?_⟩
    intro i hi
    simp [List.getElem?_map, List.getElem?_range hi, circleVertex]

/-- Witness for C5 at a concrete input: the default 64-gon around
(40.7128, −74.0060) with radius 1000 m is produced without error and has
64 vertices. -/
theorem C5_circle_no_validation_witness :
    ∃ pts, createCirclePolygon 40.7128 (-74.0060) 1000 64 = Except.ok pts ∧
      pts.length = 64 := by
  obtain ⟨-, pts, h1, h2, -⟩ := C5_circle_no_validation 40.7128 (-74.0060) 1000 64
  exact ⟨pts, h1, h2⟩

/-! ## Fallback density (`density.estimate_from_road_length`)

`density.py` lines 128–155: every edge's `estimated_addresses` becomes
`max(int((length_m / 100) * density), 0)` with the road-class density
table.  Python `int()` truncates toward zero; the claim states the
`max(0, floor(·))` form — the two agree because negatives are clamped. -/

/-- Python `int(q)` on an exact value: truncation toward zero. -/
def pyTrunc (q : ℚ) : ℤ := if 0 ≤ q then ⌊q⌋ else ⌈q⌉

/-- The `density_map` road-class table, default 10
(`density_map.get(highway_type, 10)`). -/
def densityRho (h : String) : ℕ :=
  if h = "residential" then 20
  else if h = "living_street" then 30
  else if h = "service" then 5
  else if h = "unclassified" then 15
  else if h = "tertiary" then 10
  else if h = "secondary" then 5
  else 10

/-- Embeds `estimate_from_road_length`: recompute every edge's
`estimated_addresses` from its length and road class.  (The source's
`data.get("length", 0)` / list-valued `highway` coercions never fire
after ingest, where both attributes are guaranteed scalar.) -/
def estimateFromRoadLength (G : PGraph) : PGraph :=
  { G with edges := G.edges.map fun e =>
      { e with data := { e.data with addresses :=
          (max (pyTrunc (e.data.length / 100 * (densityRho e.data.highway : ℚ))) 0).toNat } } }

theorem max_pyTrunc_eq_max_floor (q : ℚ) : max (pyTrunc q) 0 = max 0 ⌊q⌋ := by
  unfold pyTrunc
  by_cases h : 0 ≤ q
  · simp only [h, if_true]
    exact max_comm _ _
  · have hq : q < 0 := not_le.mp h
    have h1 : ⌈q⌉ ≤ 0 := Int.ceil_le.mpr (by exact_mod_cast hq.le)
    have h2 : ⌊q⌋ ≤ 0 := le_trans (Int.floor_le_ceil q) h1
    simp only [h, if_false]
    rw [max_eq_right h1, max_eq_left h2]

/-- C7 (fallback density formula).  When the road-length fallback
runs, every edge's `estimated_addresses` equals
`max(0, ⌊(length_m / 100) · ρ(highway)⌋)`, with
ρ = {residential 20, living_street 30, service 5, unclassified 15,
tertiary 10, secondary 5, default 10}. -/
theorem C7_fallback_density (G : PGraph) :
    ((estimateFromRoadLength G).edges = G.edges.map fun e =>
      { e with data := { e.data with addresses :=
          (max 0 ⌊e.data.length / 100 * (densityRho e.data.highway : ℚ)⌋).toNat } }) ∧
    densityRho "residential" = 20 ∧ densityRho "living_street" = 30 ∧
    densityRho "service" = 5 ∧ densityRho "unclassified" = 15 ∧
    densityRho "tertiary" = 10 ∧ densityRho "secondary" = 5 ∧
    (∀ s, s ≠ "residential" → s ≠ "living_street" → s ≠ "service" →
      s ≠ "unclassified" → s ≠ "tertiary" → s ≠ "secondary" → densityRho s = 10) := by
  refine ⟨?_, rfl, rfl, rfl, rfl, rfl, rfl, ?_⟩
  · unfold estimateFromRoadLength
    simp only [max_pyTrunc_eq_max_floor]
  · intro s h1 h2 h3 h4 h5 h6
    simp [densityRho, h1, h2, h3, h4, h5, h6]

/-- Witness for C7 at a concrete input: a single 150 m residential edge
receives `max(0, ⌊150/100 · 20⌋) = 30` estimated addresses. -/
theorem C7_fallback_density_witness :
    (estimateFromRoadLength
      ⟨true, [(1, 0, 0), (2, 0, 0)], [⟨1, 2, 0, ⟨150, "A", "residential", 0⟩⟩]⟩).edges
      = [⟨1, 2, 0, ⟨150, "A", "residential", 30⟩⟩] ∧
    densityRho "footway" = 10 := by
  constructor
  · rw [(C7_fallback_density
      ⟨true, [(1, 0, 0), (2, 0, 0)], [⟨1, 2, 0, ⟨150, "A", "residential", 0⟩⟩]⟩).1]
    have hrho : densityRho "residential" = 20 :=
      (C7_fallback_density ⟨true, [], []⟩).2.1
    simp only [List.map_cons, List.map_nil, hrho]
    norm_num
    decide
  · exact (C7_fallback_density ⟨true, [], []⟩).2.2.2.2.2.2.2 "footway"
      (by decide) (by decide) (by decide) (by decide) (by decide) (by decide)

/-! ## Reachability

Executable graph reachability, used to model `nx.has_path`,
`nx.is_weakly_connected` and `nx.weakly_connected_components`.  The
reachable set is computed as the fixed point of one-step neighbour
expansion (a `Finset` models the Python visited set); correctness is
proved against the inductive reachability relation `Relation.ReflTransGen`. -/

/-- One-step adjacency: `y` is a neighbour of `x` (direction-aware). -/
def adjR (G : PGraph) (x y : ℕ) : Prop := y ∈ G.nbors x

/-- One expansion step of the reachable set. -/
def stepU (G : PGraph) (s : Finset ℕ) : Finset ℕ :=
  s ∪ s.biUnion fun x => (G.nbors x).toFinset

/-- Iterated expansion with early exit at the fixed point. -/
def reachIter (G : PGraph) : ℕ → Finset ℕ → Finset ℕ
  | 0, s => s
  | f + 1, s => if stepU G s = s then s else reachIter G f (stepU G s)

/-- All nodes reachable from `u` (enough fuel to reach the fixed point). -/
def reachSet (G : PGraph) (u : ℕ) : Finset ℕ :=
  reachIter G G.endpts.length {u}

/-- Embeds `nx.has_path(G, u, v)`. -/
def reachB (G : PGraph) (u v : ℕ) : Bool := v ∈ reachSet G u

theorem subset_stepU (G : PGraph) (s : Finset ℕ) : s ⊆ stepU G s :=
  Finset.subset_union_left

theorem subset_reachIter (G : PGraph) :
    ∀ f s, s ⊆ reachIter G f s := by
  intro f
  induction f with
  | zero => intro s; exact Finset.Subset.refl s
  | succ f ih =>
    intro s
    unfold reachIter
    by_cases h : stepU G s = s
    · rw [if_pos h]
    · rw [if_neg h]
      exact Finset.Subset.trans (subset_stepU G s) (ih (stepU G s))

theorem stepU_subset_univ (G : PGraph) (U s : Finset ℕ)
    (hU : ∀ x, (G.nbors x).toFinset ⊆ U) (hs : s ⊆ U) : stepU G s ⊆ U := by
  unfold stepU
  intro y hy
  rcases Finset.mem_union.mp hy with h | h
  · exact hs h
  · obtain ⟨x, -, hx2⟩ := Finset.mem_biUnion.mp h
    exact hU x hx2

theorem reachIter_subset_univ (G : PGraph) (U : Finset ℕ)
    (hU : ∀ x, (G.nbors x).toFinset ⊆ U) :
    ∀ f s, s ⊆ U → reachIter G f s ⊆ U := by
  intro f
  induction f with
  | zero => intro s hs; exact hs
  | succ f ih =>
    intro s hs
    unfold reachIter
    by_cases h : stepU G s = s
    · rw [if_pos h]; exact hs
    · rw [if_neg h]
      exact ih (stepU G s) (stepU_subset_univ G U s hU hs)

theorem reachIter_stable (G : PGraph) (U : Finset ℕ)
    (hU : ∀ x, (G.nbors x).toFinset ⊆ U) :
    ∀ f s, s ⊆ U → U.card ≤ f + s.card →
      stepU G (reachIter G f s) = reachIter G f s := by
  intro f
  induction f with
  | zero =>
    intro s hs hcard
    have hsU : s = U := Finset.eq_of_subset_of_card_le hs (by omega)
    subst hsU
    unfold reachIter
    exact Finset.Subset.antisymm (stepU_subset_univ G s s hU (Finset.Subset.refl s))
      (subset_stepU G s)
  | succ f ih =>
    intro s hs hcard
    unfold reachIter
    by_cases h : stepU G s = s
    · rw [if_pos h, h]
    · rw [if_neg h]
      have hss : s ⊂ stepU G s :=
        Finset.ssubset_iff_subset_ne.mpr ⟨subset_stepU G s, fun heq => h heq.symm⟩
      have hlt : s.card < (stepU G s).card := Finset.card_lt_card hss
      exact ih (stepU G s) (stepU_subset_univ G U s hU hs) (by omega)

theorem mem_nbors_mem_endpts (G : PGraph) (x y : ℕ) (h : y ∈ G.nbors x) :
    y ∈ G.endpts := by
  unfold PGraph.nbors at h
  unfold PGraph.endpts
  rw [List.mem_dedup]
  by_cases hd : G.directed
  · rw [if_pos hd, List.mem_dedup] at h
    obtain ⟨e, he, heq⟩ := List.mem_filterMap.mp h
    by_cases hu : e.u = x
    · rw [if_pos hu] at heq
      have : e.v = y := Option.some.inj heq
      exact List.mem_flatMap.mpr ⟨e, he, by simp [this]⟩
    · rw [if_neg hu] at heq
      exact Option.noConfusion heq
  · rw [if_neg hd, List.mem_dedup, List.mem_append] at h
    rcases h with h | h
    · obtain ⟨e, he, heq⟩ := List.mem_filterMap.mp h
      by_cases hu : e.u = x
      · rw [if_pos hu] at heq
        have : e.v = y := Option.some.inj heq
        exact List.mem_flatMap.mpr ⟨e, he, by simp [this]⟩
      · rw [if_neg hu] at heq
        exact Option.noConfusion heq
    · obtain ⟨e, he, heq⟩ := List.mem_filterMap.mp h
      by_cases hv : e.v = x
      · rw [if_pos hv] at heq
        have : e.u = y := Option.some.inj heq
        exact List.mem_flatMap.mpr ⟨e, he, by simp [this]⟩
      · rw [if_neg hv] at heq
        exact Option.noConfusion heq

theorem nbors_toFinset_subset (G : PGraph) (x : ℕ) :
    (G.nbors x).toFinset ⊆ G.endpts.toFinset := by
  intro y hy
  rw [List.mem_toFinset] at hy
  exact List.mem_toFinset.mpr (mem_nbors_mem_endpts G x y hy)

theorem stepU_reachSet (G : PGraph) (u : ℕ) :
    stepU G (reachSet G u) = reachSet G u := by
  unfold reachSet
  refine reachIter_stable G (insert u G.endpts.toFinset)
    (fun x => Finset.Subset.trans (nbors_toFinset_subset G x)
      (Finset.subset_insert u _)) _ {u} ?_ ?_
  · intro y hy
    rw [Finset.mem_singleton] at hy
    exact Finset.mem_insert.mpr (Or.inl hy)
  · have h1 : (insert u G.endpts.toFinset).card ≤ G.endpts.toFinset.card + 1 :=
      Finset.card_insert_le u _
    have h2 : G.endpts.toFinset.card ≤ G.endpts.length := G.endpts.toFinset_card_le
    have h3 : ({u} : Finset ℕ).card = 1 := Finset.card_singleton u
    omega

theorem mem_reachSet_self (G : PGraph) (u : ℕ) : u ∈ reachSet G u :=
  subset_reachIter G _ {u} (Finset.mem_singleton_self u)

theorem reachSet_absorb (G : PGraph) (u x y : ℕ)
    (hx : x ∈ reachSet G u) (hy : y ∈ G.nbors x) : y ∈ reachSet G u := by
  have : y ∈ stepU G (reachSet G u) := by
    unfold stepU
    exact Finset.mem_union.mpr (Or.inr (Finset.mem_biUnion.mpr
      ⟨x, hx, List.mem_toFinset.mpr hy⟩))
  rwa [stepU_reachSet] at this

theorem reachIter_sound (G : PGraph) :
    ∀ f s v, v ∈ reachIter G f s →
      ∃ z ∈ s, Relation.ReflTransGen (adjR G) z v := by
  intro f
  induction f with
  | zero => intro s v hv; exact ⟨v, hv, Relation.ReflTransGen.refl⟩
  | succ f ih =>
    intro s v hv
    unfold reachIter at hv
    by_cases h : stepU G s = s
    · rw [if_pos h] at hv
      exact ⟨v, hv, Relation.ReflTransGen.refl⟩
    · rw [if_neg h] at hv
      obtain ⟨z, hz, hrtg⟩ := ih (stepU G s) v hv
      unfold stepU at hz
      rcases Finset.mem_union.mp hz with hz' | hz'
      · exact ⟨z, hz', hrtg⟩
      · obtain ⟨x, hx, hx2⟩ := Finset.mem_biUnion.mp hz'
        exact ⟨x, hx, Relation.ReflTransGen.head (List.mem_toFinset.mp hx2) hrtg⟩

theorem reachB_sound (G : PGraph) (u v : ℕ) (h : reachB G u v = true) :
    Relation.ReflTransGen (adjR G) u v := by
  unfold reachB reachSet at h
  rw [decide_eq_true_eq] at h
  obtain ⟨z, hz, hrtg⟩ := reachIter_sound G _ _ v h
  rw [Finset.mem_singleton] at hz
  subst hz
  exact hrtg

theorem reachB_complete (G : PGraph) (u v : ℕ)
    (h : Relation.ReflTransGen (adjR G) u v) : reachB G u v = true := by
  unfold reachB
  rw [decide_eq_true_eq]
  induction h with
  | refl => exact mem_reachSet_self G u
  | tail _ hadj ih => exact reachSet_absorb G u _ _ ih hadj

theorem adjR_symm (G : PGraph) (hd : G.directed = false) (x y : ℕ)
    (h : adjR G x y) : adjR G y x := by
  unfold adjR PGraph.nbors at h ⊢
  rw [hd] at h ⊢
  simp only [Bool.false_eq_true, if_false, List.mem_dedup, List.mem_append,
    List.mem_filterMap] at h ⊢
  rcases h with ⟨e, he, heq⟩ | ⟨e, he, heq⟩
  · by_cases hu : e.u = x
    · rw [if_pos hu] at heq
      have hv : e.v = y := Option.some.inj heq
      exact Or.inr ⟨e, he, by rw [if_pos hv, hu]⟩
    · rw [if_neg hu] at heq
      exact Option.noConfusion heq
  · by_cases hv : e.v = x
    · rw [if_pos hv] at heq
      have hu : e.u = y := Option.some.inj heq
      exact Or.inl ⟨e, he, by rw [if_pos hu, hv]⟩
    · rw [if_neg hv] at heq
      exact Option.noConfusion heq

theorem rtg_symm_of_symm {r : ℕ → ℕ → Prop} (hsym : Symmetric r) {u v : ℕ}
    (h : Relation.ReflTransGen r u v) : Relation.ReflTransGen r v u := by
  induction h with
  | refl => exact Relation.ReflTransGen.refl
  | tail _ hadj ih => exact Relation.ReflTransGen.head (hsym hadj) ih

theorem reachB_symm (G : PGraph) (hd : G.directed = false) (u v : ℕ)
    (h : reachB G u v = true) : reachB G v u = true :=
  reachB_complete G v u (rtg_symm_of_symm
    (fun x y hxy => adjR_symm G hd x y hxy) (reachB_sound G u v h))

theorem reachB_trans (G : PGraph) (u v w : ℕ)
    (h1 : reachB G u v = true) (h2 : reachB G v w = true) :
    reachB G u w = true :=
  reachB_complete G u w ((reachB_sound G u v h1).trans (reachB_sound G v w h2))

/-- Node-induced subgraph `G.subgraph(c)`: the nodes of `c` and every
edge with both endpoints in `c`. -/
def nodeInduced (G : PGraph) (c : Finset ℕ) : PGraph :=
  { directed := G.directed
    nodes := G.nodes.filter fun n => n.1 ∈ c
    edges := G.edges.filter fun e => e.u ∈ c ∧ e.v ∈ c }

theorem adjR_nodeInduced (G : PGraph) (hd : G.directed = false) (c : Finset ℕ)
    (x y : ℕ) (hx : x ∈ c) (hy : y ∈ c) (h : adjR G x y) :
    adjR (nodeInduced G c) x y := by
  unfold adjR PGraph.nbors at h ⊢
  rw [hd] at h
  simp only [nodeInduced]
  rw [hd]
  simp only [Bool.false_eq_true, if_false, List.mem_dedup, List.mem_append,
    List.mem_filterMap] at h ⊢
  rcases h with ⟨e, he, heq⟩ | ⟨e, he, heq⟩
  · by_cases hu : e.u = x
    · rw [if_pos hu] at heq
      have hv : e.v = y := Option.some.inj heq
      exact Or.inl ⟨e, List.mem_filter.mpr ⟨he, by
        rw [decide_eq_true_eq]; exact ⟨hu ▸ hx, hv ▸ hy⟩⟩, by rw [if_pos hu, hv]⟩
    · rw [if_neg hu] at heq
      exact Option.noConfusion heq
  · by_cases hv : e.v = x
    · rw [if_pos hv] at heq
      have hu : e.u = y := Option.some.inj heq
      exact Or.inr ⟨e, List.mem_filter.mpr ⟨he, by
        rw [decide_eq_true_eq]; exact ⟨hu ▸ hy, hv ▸ hx⟩⟩, by rw [if_pos hv, hu]⟩
    · rw [if_neg hv] at heq
      exact Option.noConfusion heq

/-- Inside a reachability class `c = reachSet G u` of an undirected graph,
any two members are connected within the subgraph induced on `c`. -/
theorem reach_nodeInduced (G : PGraph) (hd : G.directed = false) (u v w : ℕ)
    (hv : v ∈ reachSet G u) (hw : w ∈ reachSet G u) :
    reachB (nodeInduced G (reachSet G u)) v w = true := by
  have hvw : Relation.ReflTransGen (adjR G) v w := by
    have h1 : reachB G u v = true := by
      unfold reachB; rw [decide_eq_true_eq]; exact hv
    have h2 : reachB G u w = true := by
      unfold reachB; rw [decide_eq_true_eq]; exact hw
    exact reachB_sound G v w (reachB_trans G v u w (reachB_symm G hd u v h1) h2)
  refine reachB_complete _ v w ?_
  -- walk the G-chain, staying inside c by absorption
  clear hw
  induction hvw with
  | refl => exact Relation.ReflTransGen.refl
  | @tail x y hx hadj ih =>
    have hxc : x ∈ reachSet G u := by
      have h1 : reachB G u v = true := by
        unfold reachB; rw [decide_eq_true_eq]; exact hv
      have h2 : reachB G v x = true := reachB_complete G v x hx
      have := reachB_trans G u v x h1 h2
      unfold reachB at this
      rwa [decide_eq_true_eq] at this
    have hyc : y ∈ reachSet G u := reachSet_absorb G u x y hxc hadj
    exact (ih).tail (adjR_nodeInduced G hd _ x y hxc hyc hadj)

/-! ## Partitioner (`partition.partition_graph_into_zones`)

`partition.py` lines 14–122.  The k-means labelling (sklearn `KMeans`
over floating-point edge midpoints, weighted by replication, majority
vote) is an external collaborator operating on floats; it is abstracted
as the `labels` argument — one cluster label per edge, in edge order.
Everything from "Assign edges to zones" on (lines 84–110) is embedded
faithfully: group by label, skip empty groups, take the edge-induced
subgraph, and reduce a weakly disconnected zone to its largest weakly
connected component. -/

/-- Embeds `nx.is_weakly_connected`: every node reachable from the first node in
the undirected view.  (`networkx` raises on a null graph; the partition
code only calls this on zones with at least one edge.) -/
def wconnB (G : PGraph) : Bool :=
  match G.nodeIds with
  | [] => true
  | r :: _ => G.nodeIds.all fun v => reachB G.asUndirected r v

/-- Embeds `nx.weakly_connected_components`, in first-seen node order: the
reachability class of each node not contained in an earlier class. -/
def componentsOf (G : PGraph) : List (Finset ℕ) :=
  (G.nodeIds.foldl
    (fun acc n =>
      if n ∈ acc.2 then acc
      else (acc.1 ++ [reachSet G.asUndirected n], acc.2 ∪ reachSet G.asUndirected n))
    (([] : List (Finset ℕ)), (∅ : Finset ℕ))).1

/-- Embeds `max(components, key=len)`: the first component of maximal node
count (Python `max` keeps the earliest maximum). -/
def largestComponent (G : PGraph) : Finset ℕ :=
  match componentsOf G with
  | [] => ∅
  | c :: rest => rest.foldl (fun best x => if best.card < x.card then x else best) c

/-- Embeds `G.edge_subgraph(edges)`: exactly the given edges plus their incident
nodes. -/
def edgeSubgraph (G : PGraph) (es : List PEdge) : PGraph :=
  { directed := G.directed
    nodes := G.nodes.filter fun n => es.any fun e => e.u = n.1 || e.v = n.1
    edges := es }

/-- The zone materialization loop of `partition_graph_into_zones`
(lines 84–110): for each label in `range(num_zones)`, collect that
label's edges in edge order, skip empty groups, build the edge-induced
subgraph, and if it is weakly disconnected keep only its largest weakly
connected component.  (The `zone_id` graph attribute is bookkeeping and
is not modelled.) -/
def materializeZones (G : PGraph) (numZones : ℕ) (labels : List ℕ) : List PGraph :=
  (List.range numZones).filterMap fun zid =>
    let es := (G.edges.enum.filter fun p => labels.getD p.1 0 = zid).map (·.2)
    if es = [] then none
    else
      let sub := edgeSubgraph G es
      if 0 < sub.edges.length ∧ wconnB sub = false then
        match componentsOf sub with
        | [] => some sub
        | c :: rest =>
          some (nodeInduced sub
            (rest.foldl (fun best x => if best.card < x.card then x else best) c))
      else some sub

/-- Embeds `partition_graph_into_zones`: the `num_zones == 1` early return
clones the input graph without any connectivity enforcement; otherwise
cluster and materialize. -/
def partitionGraphIntoZones (G : PGraph) (numZones : ℕ) (labels : List ℕ) :
    List PGraph :=
  if numZones = 1 then [G]
  else materializeZones G numZones labels

theorem foldl_best_mem (c : Finset ℕ) (rest : List (Finset ℕ)) :
    rest.foldl (fun best x => if best.card < x.card then x else best) c = c ∨
    rest.foldl (fun best x => if best.card < x.card then x else best) c ∈ rest := by
  induction rest generalizing c with
  | nil => exact Or.inl rfl
  | cons x xs ih =>
    simp only [List.foldl_cons]
    by_cases h : c.card < x.card
    · rw [if_pos h]
      rcases ih x with h' | h'
      · exact Or.inr (by rw [h']; exact List.mem_cons_self x xs)
      · exact Or.inr (List.mem_cons_of_mem x h')
    · rw [if_neg h]
      rcases ih c with h' | h'
      · exact Or.inl h'
      · exact Or.inr (List.mem_cons_of_mem x h')

theorem componentsOf_are_reachSets (G : PGraph) :
    ∀ c ∈ componentsOf G, ∃ n, c = reachSet G.asUndirected n := by
  unfold componentsOf
  suffices h : ∀ (l : List ℕ) (acc : List (Finset ℕ) × Finset ℕ),
      (∀ c ∈ acc.1, ∃ n, c = reachSet G.asUndirected n) →
      ∀ c ∈ (l.foldl
        (fun acc n =>
          if n ∈ acc.2 then acc
          else (acc.1 ++ [reachSet G.asUndirected n],
                acc.2 ∪ reachSet G.asUndirected n)) acc).1,
        ∃ n, c = reachSet G.asUndirected n by
    exact h G.nodeIds ([], ∅) (by intro c hc; exact absurd hc (List.not_mem_nil c))
  intro l
  induction l with
  | nil => intro acc hacc c hc; exact hacc c hc
  | cons n ns ih =>
    intro acc hacc c hc
    simp only [List.foldl_cons] at hc
    by_cases h : n ∈ acc.2
    · rw [if_pos h] at hc
      exact ih acc hacc c hc
    · rw [if_neg h] at hc
      refine ih _ ?_ c hc
      intro d hd
      rcases List.mem_append.mp hd with h' | h'
      · exact hacc d h'
      · rw [List.mem_singleton] at h'
        exact ⟨n, h'⟩

theorem componentsOf_ne_nil (G : PGraph) (h : G.nodeIds ≠ []) :
    componentsOf G ≠ [] := by
  obtain ⟨r, rest, hids⟩ := List.exists_cons_of_ne_nil h
  unfold componentsOf
  rw [hids]
  simp only [List.foldl_cons]
  rw [if_neg (by exact Finset.not_mem_empty r)]
  have hmono : ∀ (l : List ℕ) (acc : List (Finset ℕ) × Finset ℕ),
      acc.1 ≠ [] →
      (l.foldl (fun acc n =>
        if n ∈ acc.2 then acc
        else (acc.1 ++ [reachSet G.asUndirected n],
              acc.2 ∪ reachSet G.asUndirected n)) acc).1 ≠ [] := by
    intro l
    induction l with
    | nil => intro acc hacc; exact hacc
    | cons m ms ih =>
      intro acc hacc
      simp only [List.foldl_cons]
      by_cases hm : m ∈ acc.2
      · rw [if_pos hm]; exact ih acc hacc
      · rw [if_neg hm]
        refine ih _ ?_
        simp only [ne_eq, List.append_eq_nil]
        rintro ⟨ha, -⟩
        exact hacc ha
  exact hmono rest _ (by simp)

theorem mem_nodeIds_nodeInduced (G : PGraph) (c : Finset ℕ) (v : ℕ)
    (h : v ∈ (nodeInduced G c).nodeIds) : v ∈ c := by
  unfold PGraph.nodeIds nodeInduced at h
  obtain ⟨n, hn, hv⟩ := List.mem_map.mp h
  have h2 := (List.mem_filter.mp hn).2
  rw [decide_eq_true_eq] at h2
  exact hv ▸ h2

theorem asUndirected_nodeInduced (G : PGraph) (c : Finset ℕ) :
    (nodeInduced G c).asUndirected = nodeInduced G.asUndirected c := rfl

/-- A zone reduced to one of its weak components is weakly connected. -/
theorem wconnB_nodeInduced_reachSet (G : PGraph) (n : ℕ) :
    wconnB (nodeInduced G (reachSet G.asUndirected n)) = true := by
  unfold wconnB
  match hids : (nodeInduced G (reachSet G.asUndirected n)).nodeIds with
  | [] => rfl
  | r :: rest =>
    rw [List.all_eq_true]
    intro v hv
    have hrc : r ∈ reachSet G.asUndirected n := by
      refine mem_nodeIds_nodeInduced G _ r ?_
      rw [hids]
      exact List.mem_cons_self r rest
    have hvc : v ∈ reachSet G.asUndirected n := by
      refine mem_nodeIds_nodeInduced G _ v ?_
      rw [hids]
      exact hv
    rw [asUndirected_nodeInduced]
    exact reach_nodeInduced G.asUndirected rfl n r v hrc hvc

/-- C3 (amended).  For `K ≥ 2` every zone returned by
`partition_graph_into_zones` is weakly connected (a weakly disconnected
zone is reduced to its largest weakly connected component); for `K = 1`
the function returns a single clone of `G` **without** any connectivity
enforcement, so that zone is weakly connected only when `G` itself is. -/
theorem C3_zone_connectivity (G : PGraph) (numZones : ℕ) (labels : List ℕ) :
    (numZones = 1 → partitionGraphIntoZones G numZones labels = [G]) ∧
    (2 ≤ numZones → ∀ z ∈ partitionGraphIntoZones G numZones labels,
      wconnB z = true) := by
  constructor
  · intro h1
    unfold partitionGraphIntoZones
    rw [if_pos h1]
  · intro h2 z hz
    unfold partitionGraphIntoZones at hz
    rw [if_neg (by omega)] at hz
    unfold materializeZones at hz
    obtain ⟨zid, -, hzid⟩ := List.mem_filterMap.mp hz
    set es := ((G.edges.enum.filter fun p => labels.getD p.1 0 = zid).map (·.2))
      with hes
    by_cases hnil : es = []
    · rw [if_pos hnil] at hzid
      exact Option.noConfusion hzid
    · rw [if_neg hnil] at hzid
      set sub := edgeSubgraph G es with hsub
      by_cases hred : 0 < sub.edges.length ∧ wconnB sub = false
      · rw [if_pos hred] at hzid
        cases hcomp : componentsOf sub with
        | nil =>
          rw [hcomp] at hzid
          have hzz : z = sub := (Option.some.inj hzid).symm
          have hids : sub.nodeIds = [] := by
            by_contra hne
            exact componentsOf_ne_nil sub hne hcomp
          rw [hzz]
          unfold wconnB
          rw [hids]
        | cons c rest =>
          rw [hcomp] at hzid
          have hzz : z = nodeInduced sub
              (rest.foldl (fun best x => if best.card < x.card then x else best) c) :=
            (Option.some.inj hzid).symm
          have hbest : (rest.foldl
              (fun best x => if best.card < x.card then x else best) c)
              ∈ componentsOf sub := by
            rcases foldl_best_mem c rest with h | h
            · rw [hcomp, h]; exact List.mem_cons_self c rest
            · rw [hcomp]; exact List.mem_cons_of_mem c h
          obtain ⟨m, hm⟩ := componentsOf_are_reachSets sub _ hbest
          rw [hzz, hm]
          exact wconnB_nodeInduced_reachSet sub m
      · rw [if_neg hred] at hzid
        have hzz : z = sub := (Option.some.inj hzid).symm
        rw [hzz]
        rcases Decidable.not_and_iff_or_not.mp hred with h | h
        · -- zone has no edges: but es ≠ [] and sub.edges = es, contradiction
          exfalso
          have hlen : sub.edges = es := rfl
          rw [hlen] at h
          have h0 : es.length = 0 := by omega
          exact hnil (List.eq_nil_of_length_eq_zero h0)
        · cases hw : wconnB sub with
          | true => rfl
          | false => exact absurd hw h

/-- The claim "every zone is weakly connected, for every input graph G
and every K ≥ 1, including K = 1" fails: for K = 1 the partitioner
returns a clone of `G` without enforcing connectivity, so a weakly
disconnected input (two disjoint road segments) yields a weakly
disconnected zone. -/
theorem C3_counterexample :
    partitionGraphIntoZones
      ⟨true, [(1, 0, 0), (2, 0, 0), (3, 0, 0), (4, 0, 0)],
        [⟨1, 2, 0, ⟨1, "A", "residential", 0⟩⟩,
         ⟨3, 4, 0, ⟨1, "B", "residential", 0⟩⟩]⟩ 1 [0, 0] =
      [⟨true, [(1, 0, 0), (2, 0, 0), (3, 0, 0), (4, 0, 0)],
        [⟨1, 2, 0, ⟨1, "A", "residential", 0⟩⟩,
         ⟨3, 4, 0, ⟨1, "B", "residential", 0⟩⟩]⟩] ∧
    wconnB ⟨true, [(1, 0, 0), (2, 0, 0), (3, 0, 0), (4, 0, 0)],
        [⟨1, 2, 0, ⟨1, "A", "residential", 0⟩⟩,
         ⟨3, 4, 0, ⟨1, "B", "residential", 0⟩⟩]⟩ = false := by
  constructor
  · rfl
  · decide

/-- Witness for C3 at a concrete input: a 2-edge path split into K = 2
zones with labels `[0, 1]`; the zone holding edge 1–2 is returned and is
weakly connected. -/
theorem C3_zone_connectivity_witness :
    wconnB ⟨true, [(1, 0, 0), (2, 0, 0)],
      [⟨1, 2, 0, ⟨1, "A", "residential", 0⟩⟩]⟩ = true :=
  (C3_zone_connectivity
    ⟨true, [(1, 0, 0), (2, 0, 0), (3, 0, 0)],
      [⟨1, 2, 0, ⟨1, "A", "residential", 0⟩⟩,
       ⟨2, 3, 0, ⟨1, "B", "residential", 0⟩⟩]⟩ 2 [0, 1]).2
    (by omega) _ (by decide)

/-! ## Router (`routing.generate_simple_route` and friends)

`routing.py` lines 111–184: a DFS-style edge-cover walk with
shortest-path bridging.  The Python `while` loop carries an explicit
iteration cap `3·|E| + 100`; the embedding recurses on that cap as fuel
and returns the remaining fuel, so "the cap was not reached" is
`0 < fuelLeft`.  `nx.has_path` is `reachB`; `nx.shortest_path` is
modelled by a breadth-first path reconstruction over the same
reachability layers (the source weights shortest paths by float edge
`length`, which only changes *which* connecting path is returned, never
whether one exists — no claim depends on the tie-breaking). -/

/-- Reconstruct a path from `u` back to `x` along reachability layers
(the returned list starts at `x` and ends at `u` when `x` is reachable
within `f` steps). -/
def pathBack (G : PGraph) (u : ℕ) : ℕ → ℕ → List ℕ
  | 0, x => [x]
  | f + 1, x =>
    if x ∈ reachIter G f {u} then pathBack G u f x
    else
      match (u :: G.endpts).find?
          (fun z => decide (x ∈ G.nbors z) && decide (z ∈ reachIter G f {u})) with
      | some z => x :: pathBack G u f z
      | none => [x]

/-- Embeds `nx.shortest_path(G, u, v)`: `some` exactly when `v` is reachable. -/
def spath (G : PGraph) (u v : ℕ) : Option (List ℕ) :=
  if reachB G u v then some (pathBack G u G.endpts.length v).reverse else none

/-- The nodes incident to at least one unvisited undirected edge key
(a Python set; modelled as a first-encounter-order deduplicated list). -/
def nodesWithUnvisited (G : PGraph) (visited : Finset (ℕ × ℕ)) : List ℕ :=
  (G.edges.flatMap fun e =>
    if pairKey e.u e.v ∈ visited then [] else [e.u, e.v]).dedup

/-- The bridging search: over candidate targets, keep the first
reachable target whose path has strictly minimal node count. -/
def bestBridge (G : PGraph) (cur : ℕ) (targets : List ℕ) :
    Option (List ℕ × ℕ) :=
  targets.foldl
    (fun acc t =>
      if reachB G cur t then
        match spath G cur t with
        | some p =>
          match acc with
          | none => some (p, t)
          | some (bp, _) => if p.length < bp.length then some (p, t) else acc
        | none => acc
      else acc)
    none

/-- State of the edge-cover loop: the walk so far, the visited
undirected edge keys (`visited_edges`), and the current node. -/
structure WalkSt where
  route : List ℕ
  visited : Finset (ℕ × ℕ)
  current : ℕ

/-- The edge-cover loop of `generate_simple_route` (fuel = remaining
iterations; the returned `ℕ` is the fuel left at exit, so `0 <` it means
the iteration cap was not reached). -/
def walkLoop (G : PGraph) : ℕ → WalkSt → WalkSt × ℕ
  | 0, st => (st, 0)
  | f + 1, st =>
    if st.visited.card < G.edges.length then
      match (G.nbors st.current).filter
          (fun n => decide (pairKey st.current n ∉ st.visited)) with
      | next :: _ =>
        walkLoop G f
          ⟨st.route ++ [next], insert (pairKey st.current next) st.visited, next⟩
      | [] =>
        match nodesWithUnvisited G st.visited with
        | [] => (st, f + 1)
        | t0 :: ts =>
          match bestBridge G st.current (t0 :: ts) with
          | some (p, t) => walkLoop G f ⟨st.route ++ p.drop 1, st.visited, t⟩
          | none => (st, f + 1)
    else (st, f + 1)

/-- Embeds `max_iterations = len(G.edges) * 3 + 100`. -/
def walkCap (G : PGraph) : ℕ := 3 * G.edges.length + 100

/-- Run the edge-cover loop from a start node. -/
def runWalk (G : PGraph) (start : ℕ) : WalkSt × ℕ :=
  walkLoop G (walkCap G) ⟨[start], ∅, start⟩

/-- Embeds `generate_simple_route`: the loop result, then the optional
return-to-start closing path. -/
def generateSimpleRoute (G : PGraph) (start : ℕ) (returnToStart : Bool) :
    List ℕ :=
  let st := (runWalk G start).1
  if returnToStart ∧ st.current ≠ start then
    if reachB G st.current start then
      match spath G st.current start with
      | some p => st.route ++ p.drop 1
      | none => st.route
    else st.route
  else st.route

/-- Number of loop iterations actually executed. -/
def walkIterations (G : PGraph) (start : ℕ) : ℕ :=
  walkCap G - (runWalk G start).2

/-- The walk contains `u, v` as adjacent entries (in either order):
the walk traverses an edge between `u` and `v`. -/
def adjPairIn (l : List ℕ) (u v : ℕ) : Bool :=
  (l.zip l.tail).any fun p => (p.1 = u && p.2 = v) || (p.1 = v && p.2 = u)

/-- The walk makes the directed step `u → v` somewhere. -/
def dirStepIn (l : List ℕ) (u v : ℕ) : Bool :=
  (l.zip l.tail).any fun p => p.1 = u && p.2 = v

theorem walkLoop_branch_step (G : PGraph) (f : ℕ) (st : WalkSt)
    (hc : st.visited.card < G.edges.length) (next : ℕ) (rest : List ℕ)
    (hfil : (G.nbors st.current).filter
      (fun n => decide (pairKey st.current n ∉ st.visited)) = next :: rest) :
    walkLoop G (f + 1) st = walkLoop G f
      ⟨st.route ++ [next], insert (pairKey st.current next) st.visited, next⟩ := by
  conv_lhs => unfold walkLoop
  rw [if_pos hc, hfil]

theorem walkLoop_branch_done (G : PGraph) (f : ℕ) (st : WalkSt)
    (hc : st.visited.card < G.edges.length)
    (hfil : (G.nbors st.current).filter
      (fun n => decide (pairKey st.current n ∉ st.visited)) = [])
    (hnwu : nodesWithUnvisited G st.visited = []) :
    walkLoop G (f + 1) st = (st, f + 1) := by
  conv_lhs => unfold walkLoop
  rw [if_pos hc, hfil, hnwu]

theorem walkLoop_branch_bridge (G : PGraph) (f : ℕ) (st : WalkSt)
    (hc : st.visited.card < G.edges.length)
    (hfil : (G.nbors st.current).filter
      (fun n => decide (pairKey st.current n ∉ st.visited)) = [])
    (t0 : ℕ) (ts : List ℕ)
    (hnwu : nodesWithUnvisited G st.visited = t0 :: ts)
    (p : List ℕ) (t : ℕ)
    (hbb : bestBridge G st.current (t0 :: ts) = some (p, t)) :
    walkLoop G (f + 1) st = walkLoop G f
      ⟨st.route ++ p.drop 1, st.visited, t⟩ := by
  conv_lhs => unfold walkLoop
  rw [if_pos hc, hfil, hnwu]
  dsimp only
  rw [hbb]

theorem walkLoop_branch_stuck (G : PGraph) (f : ℕ) (st : WalkSt)
    (hc : st.visited.card < G.edges.length)
    (hfil : (G.nbors st.current).filter
      (fun n => decide (pairKey st.current n ∉ st.visited)) = [])
    (t0 : ℕ) (ts : List ℕ)
    (hnwu : nodesWithUnvisited G st.visited = t0 :: ts)
    (hbb : bestBridge G st.current (t0 :: ts) = none) :
    walkLoop G (f + 1) st = (st, f + 1) := by
  conv_lhs => unfold walkLoop
  rw [if_pos hc, hfil, hnwu]
  dsimp only
  rw [hbb]

theorem walkLoop_branch_covered (G : PGraph) (f : ℕ) (st : WalkSt)
    (hc : ¬ st.visited.card < G.edges.length) :
    walkLoop G (f + 1) st = (st, f + 1) := by
  conv_lhs => unfold walkLoop
  rw [if_neg hc]

theorem walkLoop_fuel_le (G : PGraph) :
    ∀ f st, (walkLoop G f st).2 ≤ f := by
  intro f
  induction f with
  | zero => intro st; exact Nat.le_refl 0
  | succ f ih =>
    intro st
    by_cases hc : st.visited.card < G.edges.length
    · cases hfil : (G.nbors st.current).filter
          (fun n => decide (pairKey st.current n ∉ st.visited)) with
      | cons next rest =>
        rw [walkLoop_branch_step G f st hc next rest hfil]
        exact Nat.le_succ_of_le (ih _)
      | nil =>
        cases hnwu : nodesWithUnvisited G st.visited with
        | nil => rw [walkLoop_branch_done G f st hc hfil hnwu]
        | cons t0 ts =>
          cases hbb : bestBridge G st.current (t0 :: ts) with
          | some pt =>
            obtain ⟨p, t⟩ := pt
            rw [walkLoop_branch_bridge G f st hc hfil t0 ts hnwu p t hbb]
            exact Nat.le_succ_of_le (ih _)
          | none => rw [walkLoop_branch_stuck G f st hc hfil t0 ts hnwu hbb]
    · rw [walkLoop_branch_covered G f st hc]

/-- C8 (walk termination bound).  For every zone graph and start
node the edge-cover loop executes at most `3·|E| + 100` iterations: the
fuel left at exit never exceeds the cap, so the iteration count
`cap − fuelLeft` is bounded by the cap.  (Termination itself is by
construction: the loop consumes one unit of fuel per iteration.) -/
theorem C8_walk_termination (G : PGraph) (start : ℕ) :
    walkIterations G start ≤ 3 * G.edges.length + 100 ∧
    (runWalk G start).2 ≤ walkCap G := by
  refine ⟨?_, ?_⟩
  · unfold walkIterations walkCap
    omega
  · unfold runWalk
    exact walkLoop_fuel_le G (walkCap G) _

/-- The claim "the walk visits every edge at least once (weakly
connected, cap not reached), including the directed multigraph used in
driving mode and zones with parallel edges" fails: a two-way street
(directed edges 1→2 and 2→1, as in driving mode) is weakly connected,
the cap is not reached, but the walk is `[1, 2]` — it never traverses
the edge 2→1, and its single adjacent occurrence of the pair {1, 2}
cannot cover two parallel edge keys. -/
theorem C2_counterexample :
    wconnB ⟨true, [(1, 0, 0), (2, 0, 0)],
      [⟨1, 2, 0, ⟨1, "A", "residential", 0⟩⟩,
       ⟨2, 1, 0, ⟨1, "A", "residential", 0⟩⟩]⟩ = true ∧
    0 < (runWalk ⟨true, [(1, 0, 0), (2, 0, 0)],
      [⟨1, 2, 0, ⟨1, "A", "residential", 0⟩⟩,
       ⟨2, 1, 0, ⟨1, "A", "residential", 0⟩⟩]⟩ 1).2 ∧
    generateSimpleRoute ⟨true, [(1, 0, 0), (2, 0, 0)],
      [⟨1, 2, 0, ⟨1, "A", "residential", 0⟩⟩,
       ⟨2, 1, 0, ⟨1, "A", "residential", 0⟩⟩]⟩ 1 false = [1, 2] ∧
    dirStepIn (generateSimpleRoute ⟨true, [(1, 0, 0), (2, 0, 0)],
      [⟨1, 2, 0, ⟨1, "A", "residential", 0⟩⟩,
       ⟨2, 1, 0, ⟨1, "A", "residential", 0⟩⟩]⟩ 1 false) 2 1 = false ∧
    ((generateSimpleRoute ⟨true, [(1, 0, 0), (2, 0, 0)],
        [⟨1, 2, 0, ⟨1, "A", "residential", 0⟩⟩,
         ⟨2, 1, 0, ⟨1, "A", "residential", 0⟩⟩]⟩ 1 false).zip
      (generateSimpleRoute ⟨true, [(1, 0, 0), (2, 0, 0)],
        [⟨1, 2, 0, ⟨1, "A", "residential", 0⟩⟩,
         ⟨2, 1, 0, ⟨1, "A", "residential", 0⟩⟩]⟩ 1 false).tail).length = 1 := by
  refine ⟨by decide, by decide, by decide, by decide, by decide⟩

/-! ### Lemmas toward the edge-coverage theorem -/

/-- Undirected adjacency characterized by the edge list. -/
theorem mem_nbors_undirected (G : PGraph) (hd : G.directed = false) (x y : ℕ) :
    y ∈ G.nbors x ↔ ∃ e ∈ G.edges, (e.u = x ∧ e.v = y) ∨ (e.u = y ∧ e.v = x) := by
  unfold PGraph.nbors
  rw [hd]
  simp only [Bool.false_eq_true, if_false, List.mem_dedup, List.mem_append,
    List.mem_filterMap]
  constructor
  · rintro (⟨e, he, heq⟩ | ⟨e, he, heq⟩)
    · by_cases hu : e.u = x
      · rw [if_pos hu] at heq
        exact ⟨e, he, Or.inl ⟨hu, Option.some.inj heq⟩⟩
      · rw [if_neg hu] at heq
        exact Option.noConfusion heq
    · by_cases hv : e.v = x
      · rw [if_pos hv] at heq
        exact ⟨e, he, Or.inr ⟨Option.some.inj heq, hv⟩⟩
      · rw [if_neg hv] at heq
        exact Option.noConfusion heq
  · rintro ⟨e, he, ⟨hu, hv⟩ | ⟨hu, hv⟩⟩
    · exact Or.inl ⟨e, he, by rw [if_pos hu, hv]⟩
    · exact Or.inr ⟨e, he, by rw [if_pos hv, hu]⟩

/-- The set of undirected edge keys of the graph. -/
def pairFinset (G : PGraph) : Finset (ℕ × ℕ) :=
  (G.edges.map fun e => pairKey e.u e.v).toFinset

theorem pairFinset_card_le (G : PGraph) :
    (pairFinset G).card ≤ G.edges.length := by
  unfold pairFinset
  calc (G.edges.map fun e => pairKey e.u e.v).toFinset.card
      ≤ (G.edges.map fun e => pairKey e.u e.v).length := List.toFinset_card_le _
    _ = G.edges.length := List.length_map _ _

theorem pairKey_mem_pairFinset (G : PGraph) (e : PEdge) (he : e ∈ G.edges) :
    pairKey e.u e.v ∈ pairFinset G := by
  unfold pairFinset
  rw [List.mem_toFinset]
  exact List.mem_map.mpr ⟨e, he, rfl⟩

theorem nbors_pairKey_mem (G : PGraph) (hd : G.directed = false) (x y : ℕ)
    (h : y ∈ G.nbors x) : pairKey x y ∈ pairFinset G := by
  obtain ⟨e, he, huv | huv⟩ := (mem_nbors_undirected G hd x y).mp h
  · have : pairKey e.u e.v = pairKey x y := by rw [huv.1, huv.2]
    exact this ▸ pairKey_mem_pairFinset G e he
  · have : pairKey e.u e.v = pairKey x y := by
      rw [huv.1, huv.2]
      exact pairKey_comm y x
    exact this ▸ pairKey_mem_pairFinset G e he

theorem adjPairIn_swap (l : List ℕ) (u v : ℕ) :
    adjPairIn l u v = adjPairIn l v u := by
  unfold adjPairIn
  rw [Bool.eq_iff_iff, List.any_eq_true, List.any_eq_true]
  constructor
  · rintro ⟨p, hp, hc⟩
    exact ⟨p, hp, by rw [Bool.or_comm]; exact hc⟩
  · rintro ⟨p, hp, hc⟩
    exact ⟨p, hp, by rw [Bool.or_comm]; exact hc⟩

theorem mem_zipTail_append (l' : List ℕ) :
    ∀ (l : List ℕ) (p : ℕ × ℕ), p ∈ l.zip l.tail →
      p ∈ (l ++ l').zip ((l ++ l').tail) := by
  intro l
  induction l with
  | nil => intro p hp; simp at hp
  | cons a t ih =>
    intro p hp
    cases t with
    | nil => simp at hp
    | cons b t2 =>
      simp only [List.zip_cons_cons, List.tail_cons, List.mem_cons] at hp
      rcases hp with hp | hp
      · subst hp
        simp [List.cons_append]
      · have := ih p (by simpa using hp)
        simp only [List.cons_append, List.zip_cons_cons, List.tail_cons,
          List.mem_cons] at this ⊢
        exact Or.inr (by simpa [List.cons_append] using this)

theorem adjPairIn_append (l l' : List ℕ) (u v : ℕ)
    (h : adjPairIn l u v = true) : adjPairIn (l ++ l') u v = true := by
  unfold adjPairIn at h ⊢
  rw [List.any_eq_true] at h ⊢
  obtain ⟨p, hp, hcond⟩ := h
  exact ⟨p, mem_zipTail_append l' l p hp, hcond⟩

theorem adjPairIn_concat_last :
    ∀ (l : List ℕ) (a b : ℕ), l.getLast? = some a →
      adjPairIn (l ++ [b]) a b = true := by
  intro l
  induction l with
  | nil => intro a b h; exact Option.noConfusion h
  | cons x t ih =>
    intro a b h
    cases t with
    | nil =>
      have hx : x = a := by
        simpa using h
      subst hx
      unfold adjPairIn
      simp
    | cons y t2 =>
      have h2 : (y :: t2).getLast? = some a := by
        rw [List.getLast?_cons_cons] at h
        exact h
      have := ih a b h2
      unfold adjPairIn at this ⊢
      rw [List.any_eq_true] at this ⊢
      obtain ⟨p, hp, hcond⟩ := this
      refine ⟨p, ?_, hcond⟩
      simp only [List.cons_append, List.zip_cons_cons, List.tail_cons,
        List.mem_cons] at hp ⊢
      exact Or.inr hp

theorem nwu_nil_covered (G : PGraph) (visited : Finset (ℕ × ℕ))
    (h : nodesWithUnvisited G visited = []) :
    ∀ e ∈ G.edges, pairKey e.u e.v ∈ visited := by
  intro e he
  unfold nodesWithUnvisited at h
  rw [List.dedup_eq_nil] at h
  by_contra hout
  have hmem : e.u ∈ G.edges.flatMap fun e =>
      if pairKey e.u e.v ∈ visited then [] else [e.u, e.v] := by
    rw [List.mem_flatMap]
    exact ⟨e, he, by rw [if_neg hout]; simp⟩
  rw [h] at hmem
  exact List.not_mem_nil _ hmem

theorem mem_nwu_endpts (G : PGraph) (visited : Finset (ℕ × ℕ)) (t : ℕ)
    (h : t ∈ nodesWithUnvisited G visited) : t ∈ G.endpts := by
  unfold nodesWithUnvisited at h
  rw [List.mem_dedup, List.mem_flatMap] at h
  obtain ⟨e, he, hmem⟩ := h
  unfold PGraph.endpts
  rw [List.mem_dedup, List.mem_flatMap]
  refine ⟨e, he, ?_⟩
  by_cases hin : pairKey e.u e.v ∈ visited
  · rw [if_pos hin] at hmem
    exact absurd hmem (List.not_mem_nil t)
  · rw [if_neg hin] at hmem
    exact hmem

theorem reachIter_succ_tail (G : PGraph) :
    ∀ f s, reachIter G (f + 1) s =
      if stepU G (reachIter G f s) = reachIter G f s then reachIter G f s
      else stepU G (reachIter G f s) := by
  intro f
  induction f with
  | zero =>
    intro s
    rfl
  | succ f ih =>
    intro s
    by_cases h : stepU G s = s
    · have e1 : reachIter G (f + 1) s = s := by
        show (if stepU G s = s then s else reachIter G f (stepU G s)) = s
        rw [if_pos h]
      have e2 : reachIter G (f + 1 + 1) s = s := by
        show (if stepU G s = s then s else reachIter G (f + 1) (stepU G s)) = s
        rw [if_pos h]
      rw [e2, e1, if_pos h]
    · have e1 : reachIter G (f + 1) s = reachIter G f (stepU G s) := by
        show (if stepU G s = s then s else reachIter G f (stepU G s)) = _
        rw [if_neg h]
      have e2 : reachIter G (f + 1 + 1) s = reachIter G (f + 1) (stepU G s) := by
        show (if stepU G s = s then s else reachIter G (f + 1) (stepU G s)) = _
        rw [if_neg h]
      rw [e2, e1]
      exact ih (stepU G s)

theorem pathBack_head (G : PGraph) (u : ℕ) :
    ∀ f x, (pathBack G u f x).head? = some x := by
  intro f
  induction f with
  | zero => intro x; rfl
  | succ f ih =>
    intro x
    unfold pathBack
    by_cases h : x ∈ reachIter G f {u}
    · rw [if_pos h]
      exact ih x
    · rw [if_neg h]
      cases hf : (u :: G.endpts).find?
          (fun z => decide (x ∈ G.nbors z) && decide (z ∈ reachIter G f {u})) with
      | some z => rfl
      | none => rfl

theorem pathBack_ne_nil (G : PGraph) (u : ℕ) (f x : ℕ) :
    pathBack G u f x ≠ [] := by
  intro h
  have := pathBack_head G u f x
  rw [h] at this
  exact Option.noConfusion this

theorem pathBack_last (G : PGraph) (u : ℕ) :
    ∀ f x, x ∈ reachIter G f {u} → (pathBack G u f x).getLast? = some u := by
  intro f
  induction f with
  | zero =>
    intro x hx
    have : x = u := by
      have := hx
      simp only [reachIter, Finset.mem_singleton] at this
      exact this
    rw [this]
    rfl
  | succ f ih =>
    intro x hx
    unfold pathBack
    by_cases h : x ∈ reachIter G f {u}
    · rw [if_pos h]
      exact ih x h
    · rw [if_neg h]
      -- x entered at this layer: some predecessor in the previous layer exists
      have hlayer := reachIter_succ_tail G f {u}
      have hx2 : x ∈ stepU G (reachIter G f {u}) := by
        by_cases hstab : stepU G (reachIter G f {u}) = reachIter G f {u}
        · rw [hlayer, if_pos hstab] at hx
          exact absurd hx h
        · rw [hlayer, if_neg hstab] at hx
          exact hx
      have hpred : ∃ z ∈ reachIter G f {u}, x ∈ G.nbors z := by
        unfold stepU at hx2
        rcases Finset.mem_union.mp hx2 with h' | h'
        · exact absurd h' h
        · obtain ⟨z, hz, hz2⟩ := Finset.mem_biUnion.mp h'
          exact ⟨z, hz, List.mem_toFinset.mp hz2⟩
      obtain ⟨z, hz, hz2⟩ := hpred
      have hzmem : z ∈ u :: G.endpts := by
        have hsub : reachIter G f {u} ⊆ insert u G.endpts.toFinset := by
          refine reachIter_subset_univ G (insert u G.endpts.toFinset)
            (fun x => Finset.Subset.trans (nbors_toFinset_subset G x)
              (Finset.subset_insert u _)) f {u} ?_
          intro y hy
          rw [Finset.mem_singleton] at hy
          exact Finset.mem_insert.mpr (Or.inl hy)
        have := hsub hz
        rcases Finset.mem_insert.mp this with h' | h'
        · exact h' ▸ List.mem_cons_self u _
        · exact List.mem_cons_of_mem u (List.mem_toFinset.mp h')
      have hfind : ((u :: G.endpts).find?
          (fun w => decide (x ∈ G.nbors w) && decide (w ∈ reachIter G f {u}))).isSome := by
        rw [List.find?_isSome]
        exact ⟨z, hzmem, by
          rw [Bool.and_eq_true, decide_eq_true_eq, decide_eq_true_eq]
          exact ⟨hz2, hz⟩⟩
      cases hf : (u :: G.endpts).find?
          (fun w => decide (x ∈ G.nbors w) && decide (w ∈ reachIter G f {u})) with
      | none => rw [hf] at hfind; exact Bool.noConfusion hfind
      | some w =>
        have hw := List.find?_some hf
        rw [Bool.and_eq_true, decide_eq_true_eq, decide_eq_true_eq] at hw
        have hlast := ih w hw.2
        show (x :: pathBack G u f w).getLast? = some u
        cases hpb : pathBack G u f w with
        | nil => exact absurd hpb (pathBack_ne_nil G u f w)
        | cons b l =>
          rw [hpb] at hlast
          rw [List.getLast?_cons_cons]
          exact hlast

theorem spath_props (G : PGraph) (u v : ℕ) (p : List ℕ)
    (h : spath G u v = some p) :
    p ≠ [] ∧ p.head? = some u ∧ p.getLast? = some v := by
  unfold spath at h
  by_cases hr : reachB G u v
  · rw [if_pos hr] at h
    have hp := Option.some.inj h
    have hmem : v ∈ reachIter G G.endpts.length {u} := by
      unfold reachB reachSet at hr
      rw [decide_eq_true_eq] at hr
      exact hr
    refine ⟨?_, ?_, ?_⟩
    · rw [← hp]
      intro hcontra
      exact pathBack_ne_nil G u G.endpts.length v (by
        have := congrArg List.reverse hcontra
        rwa [List.reverse_reverse] at this)
    · rw [← hp, List.head?_reverse]
      exact pathBack_last G u G.endpts.length v hmem
    · rw [← hp, List.getLast?_reverse]
      exact pathBack_head G u G.endpts.length v
  · rw [if_neg hr] at h
    exact Option.noConfusion h

theorem bestBridge_some_props (G : PGraph) (cur : ℕ) (targets : List ℕ)
    (p : List ℕ) (t : ℕ) (h : bestBridge G cur targets = some (p, t)) :
    spath G cur t = some p ∧ t ∈ targets := by
  unfold bestBridge at h
  suffices hgen : ∀ (l : List ℕ) (L : List ℕ)
      (acc : Option (List ℕ × ℕ)),
      (∀ q s, acc = some (q, s) → spath G cur s = some q ∧ s ∈ L) →
      (∀ x ∈ l, x ∈ L) →
      ∀ q s, (l.foldl
        (fun acc t =>
          if reachB G cur t then
            match spath G cur t with
            | some p =>
              match acc with
              | none => some (p, t)
              | some (bp, _) => if p.length < bp.length then some (p, t) else acc
            | none => acc
          else acc) acc) = some (q, s) →
        spath G cur s = some q ∧ s ∈ L by
    exact hgen targets targets none (by intro q s hq; exact Option.noConfusion hq)
      (fun x hx => hx) p t h
  intro l
  induction l with
  | nil => intro L acc hacc hsub q s hq; exact hacc q s hq
  | cons x xs ih =>
    intro L acc hacc hsub q s hq
    simp only [List.foldl_cons] at hq
    refine ih L _ ?_ (fun y hy => hsub y (List.mem_cons_of_mem x hy)) q s hq
    intro q' s' hacc'
    by_cases hr : reachB G cur x
    · rw [if_pos hr] at hacc'
      cases hsp : spath G cur x with
      | some px =>
        rw [hsp] at hacc'
        cases acc with
        | none =>
          dsimp only at hacc'
          obtain ⟨h1, h2⟩ := Prod.mk.inj (Option.some.inj hacc')
          subst h1
          subst h2
          exact ⟨hsp, hsub x (List.mem_cons_self x xs)⟩
        | some bp =>
          obtain ⟨bpl, bts⟩ := bp
          dsimp only at hacc'
          by_cases hlen : px.length < bpl.length
          · rw [if_pos hlen] at hacc'
            obtain ⟨h1, h2⟩ := Prod.mk.inj (Option.some.inj hacc')
            subst h1
            subst h2
            exact ⟨hsp, hsub x (List.mem_cons_self x xs)⟩
          · rw [if_neg hlen] at hacc'
            exact hacc q' s' hacc'
      | none =>
        rw [hsp] at hacc'
        exact hacc q' s' hacc'
    · rw [if_neg hr] at hacc'
      exact hacc q' s' hacc'

theorem bestBridge_ne_none (G : PGraph) (cur : ℕ) (targets : List ℕ)
    (h : ∃ t ∈ targets, reachB G cur t = true) :
    bestBridge G cur targets ≠ none := by
  unfold bestBridge
  suffices hgen : ∀ (l : List ℕ) (acc : Option (List ℕ × ℕ)),
      (acc ≠ none ∨ ∃ t ∈ l, reachB G cur t = true) →
      (l.foldl
        (fun acc t =>
          if reachB G cur t then
            match spath G cur t with
            | some p =>
              match acc with
              | none => some (p, t)
              | some (bp, _) => if p.length < bp.length then some (p, t) else acc
            | none => acc
          else acc) acc) ≠ none by
    exact hgen targets none (Or.inr h)
  intro l
  induction l with
  | nil =>
    intro acc hacc
    rcases hacc with hacc | ⟨t, ht, -⟩
    · exact hacc
    · exact absurd ht (List.not_mem_nil t)
  | cons x xs ih =>
    intro acc hacc
    simp only [List.foldl_cons]
    refine ih _ ?_
    rcases hacc with hacc | ⟨t, ht, hrt⟩
    · left
      by_cases hr : reachB G cur x
      · rw [if_pos hr]
        cases hsp : spath G cur x with
        | some px =>
          cases acc with
          | none => exact absurd rfl hacc
          | some bp =>
            obtain ⟨bpl, bts⟩ := bp
            dsimp only
            by_cases hlen : px.length < bpl.length
            · rw [if_pos hlen]; exact Option.noConfusion
            · rw [if_neg hlen]; exact hacc
        | none => exact hacc
      · rw [if_neg hr]; exact hacc
    · rcases List.mem_cons.mp ht with hx | hx
      · left
        rw [← hx, if_pos hrt]
        have hsp : spath G cur t = some (pathBack G cur G.endpts.length t).reverse := by
          unfold spath
          rw [if_pos hrt]
        rw [hsp]
        cases acc with
        | none => exact Option.noConfusion
        | some bp =>
          obtain ⟨bpl, bts⟩ := bp
          dsimp only
          by_cases hlen : (pathBack G cur G.endpts.length t).reverse.length < bpl.length
          · rw [if_pos hlen]
            exact Option.noConfusion
          · rw [if_neg hlen]
            exact Option.noConfusion
      · right
        exact ⟨t, hx, hrt⟩

theorem getLast?_append_right (l l' : List ℕ) (h : l' ≠ []) :
    (l ++ l').getLast? = l'.getLast? := by
  induction l with
  | nil => rfl
  | cons a t ih =>
    rw [List.cons_append]
    cases ht : t ++ l' with
    | nil =>
      exfalso
      rcases List.append_eq_nil.mp ht with ⟨-, h2⟩
      exact h h2
    | cons b t2 =>
      rw [List.getLast?_cons_cons, ← ht]
      exact ih

theorem adjPairIn_pairKey (l : List ℕ) (u v : ℕ)
    (h : adjPairIn l u v = true) :
    adjPairIn l (pairKey u v).1 (pairKey u v).2 = true := by
  unfold pairKey
  by_cases hle : u ≤ v
  · rw [if_pos hle]
    exact h
  · rw [if_neg hle]
    show adjPairIn l v u = true
    rw [adjPairIn_swap]
    exact h

/-- Loop invariant of the edge-cover walk: the walk is non-empty, ends at
the current node, the current node is an edge endpoint, and every
visited edge key is a real edge key already traversed by the walk. -/
def WalkInv (G : PGraph) (st : WalkSt) : Prop :=
  st.route ≠ [] ∧ st.route.getLast? = some st.current ∧
  st.current ∈ G.endpts ∧
  (∀ p ∈ st.visited, p ∈ pairFinset G) ∧
  (∀ p ∈ st.visited, adjPairIn st.route p.1 p.2 = true)

theorem walkLoop_main (G : PGraph) (hd : G.directed = false)
    (hconn : ∀ u ∈ G.endpts, ∀ v ∈ G.endpts, reachB G u v = true) :
    ∀ f st, WalkInv G st →
      WalkInv G ((walkLoop G f st).1) ∧
      (∃ l, ((walkLoop G f st).1).route = st.route ++ l) ∧
      (0 < (walkLoop G f st).2 →
        ∀ e ∈ G.edges, pairKey e.u e.v ∈ ((walkLoop G f st).1).visited) := by
  intro f
  induction f with
  | zero =>
    intro st hinv
    refine ⟨hinv, ⟨[], (List.append_nil _).symm⟩, ?_⟩
    intro hpos
    have h0 : (walkLoop G 0 st).2 = 0 := rfl
    rw [h0] at hpos
    omega
  | succ f ih =>
    intro st hinv
    obtain ⟨hne, hlast, hcur, hvp, hva⟩ := id hinv
    by_cases hc : st.visited.card < G.edges.length
    · cases hfil : (G.nbors st.current).filter
          (fun n => decide (pairKey st.current n ∉ st.visited)) with
      | cons next rest =>
        rw [walkLoop_branch_step G f st hc next rest hfil]
        have hnext_mem : next ∈ (G.nbors st.current).filter
            (fun n => decide (pairKey st.current n ∉ st.visited)) := by
          rw [hfil]
          exact List.mem_cons_self next rest
        have hnext : next ∈ G.nbors st.current := (List.mem_filter.mp hnext_mem).1
        have hinv' : WalkInv G ⟨st.route ++ [next],
            insert (pairKey st.current next) st.visited, next⟩ := by
          refine ⟨?_, ?_, ?_, ?_, ?_⟩
          · simp
          · exact List.getLast?_concat _
          · exact mem_nbors_mem_endpts G st.current next hnext
          · intro p hp
            rcases Finset.mem_insert.mp hp with hpk | hp'
            · exact hpk ▸ nbors_pairKey_mem G hd st.current next hnext
            · exact hvp p hp'
          · intro p hp
            rcases Finset.mem_insert.mp hp with hpk | hp'
            · subst hpk
              exact adjPairIn_pairKey _ _ _
                (adjPairIn_concat_last st.route st.current next hlast)
            · exact adjPairIn_append _ _ _ _ (hva p hp')
        obtain ⟨hinvf, ⟨l, hl⟩, hcov⟩ := ih _ hinv'
        refine ⟨hinvf, ⟨[next] ++ l, ?_⟩, hcov⟩
        rw [hl]
        simp
      | nil =>
        cases hnwu : nodesWithUnvisited G st.visited with
        | nil =>
          rw [walkLoop_branch_done G f st hc hfil hnwu]
          exact ⟨hinv, ⟨[], (List.append_nil _).symm⟩,
            fun _ => nwu_nil_covered G st.visited hnwu⟩
        | cons t0 ts =>
          cases hbb : bestBridge G st.current (t0 :: ts) with
          | some pt =>
            obtain ⟨p, t⟩ := pt
            rw [walkLoop_branch_bridge G f st hc hfil t0 ts hnwu p t hbb]
            obtain ⟨hsp, htmem⟩ := bestBridge_some_props G st.current _ p t hbb
            obtain ⟨hpne, hphead, hplast⟩ := spath_props G st.current t p hsp
            have hte : t ∈ G.endpts := by
              refine mem_nwu_endpts G st.visited t ?_
              rw [hnwu]
              exact htmem
            obtain ⟨u0, p', hp0⟩ := List.exists_cons_of_ne_nil hpne
            have hu0 : u0 = st.current := by
              rw [hp0] at hphead
              exact Option.some.inj hphead
            have hdrop : p.drop 1 = p' := by rw [hp0]; rfl
            have hinv' : WalkInv G ⟨st.route ++ p.drop 1, st.visited, t⟩ := by
              refine ⟨?_, ?_, hte, hvp, ?_⟩
              · intro hcontra
                rcases List.append_eq_nil.mp hcontra with ⟨h1, -⟩
                exact hne h1
              · cases hp' : p' with
                | nil =>
                  have hct : st.current = t := by
                    rw [hp0, hp', hu0] at hplast
                    exact Option.some.inj hplast
                  rw [hdrop, hp', List.append_nil]
                  rw [hlast, hct]
                | cons b p2 =>
                  rw [hdrop, hp']
                  rw [getLast?_append_right st.route (b :: p2) (by simp)]
                  rw [hp0, hp'] at hplast
                  rw [List.getLast?_cons_cons] at hplast
                  exact hplast
              · intro q hq
                exact adjPairIn_append _ _ _ _ (hva q hq)
            obtain ⟨hinvf, ⟨l, hl⟩, hcov⟩ := ih _ hinv'
            refine ⟨hinvf, ⟨p.drop 1 ++ l, ?_⟩, hcov⟩
            rw [hl]
            simp
          | none =>
            rw [walkLoop_branch_stuck G f st hc hfil t0 ts hnwu hbb]
            refine ⟨hinv, ⟨[], (List.append_nil _).symm⟩, ?_⟩
            intro hpos
            exfalso
            have ht0 : t0 ∈ nodesWithUnvisited G st.visited := by
              rw [hnwu]
              exact List.mem_cons_self t0 ts
            have ht0e : t0 ∈ G.endpts := mem_nwu_endpts G st.visited t0 ht0
            exact bestBridge_ne_none G st.current (t0 :: ts)
              ⟨t0, List.mem_cons_self t0 ts, hconn st.current hcur t0 ht0e⟩ hbb
    · rw [walkLoop_branch_covered G f st hc]
      refine ⟨hinv, ⟨[], (List.append_nil _).symm⟩, ?_⟩
      intro _ e he
      have hsub : st.visited ⊆ pairFinset G := fun p hp => hvp p hp
      have hcard : (pairFinset G).card ≤ st.visited.card :=
        le_trans (pairFinset_card_le G) (by omega)
      have heq : st.visited = pairFinset G :=
        Finset.eq_of_subset_of_card_le hsub hcard
      rw [heq]
      exact pairKey_mem_pairFinset G e he

/-- C2 (amended).  In walking mode the walk is computed on the
undirected projection of the zone graph; for every such undirected zone
that is connected (every pair of edge endpoints mutually reachable) and
whose start node is an edge endpoint, whenever the iteration cap is not
reached the walk traverses at least one edge between every adjacent node
pair — hence it visits every edge of a zone without parallel keys.  Edges
beyond the first between the same endpoint pair (parallel keys, or the
two directions of a two-way street in driving mode) share one undirected
key and may remain unvisited, and in driving mode the claim fails
outright (see the counterexample). -/
theorem C2_route_edge_coverage (G : PGraph) (s : ℕ) (rts : Bool)
    (hd : G.directed = false)
    (hconn : (G.endpts.all fun u => G.endpts.all fun v => reachB G u v) = true)
    (hs : s ∈ G.endpts)
    (hcap : 0 < (runWalk G s).2) :
    ∀ e ∈ G.edges, adjPairIn (generateSimpleRoute G s rts) e.u e.v = true := by
  intro e he
  have hconn' : ∀ u ∈ G.endpts, ∀ v ∈ G.endpts, reachB G u v = true := by
    rw [List.all_eq_true] at hconn
    intro u hu v hv
    have := hconn u hu
    rw [List.all_eq_true] at this
    exact this v hv
  have hinv0 : WalkInv G ⟨[s], ∅, s⟩ := by
    refine ⟨by simp, rfl, hs, ?_, ?_⟩
    · intro p hp
      exact absurd hp (Finset.not_mem_empty p)
    · intro p hp
      exact absurd hp (Finset.not_mem_empty p)
  obtain ⟨⟨-, -, -, -, hadj⟩, -, hcov⟩ :=
    walkLoop_main G hd hconn' (walkCap G) ⟨[s], ∅, s⟩ hinv0
  have hrw : runWalk G s = walkLoop G (walkCap G) ⟨[s], ∅, s⟩ := rfl
  rw [← hrw] at hadj hcov
  have hpk : pairKey e.u e.v ∈ ((runWalk G s).1).visited := hcov hcap e he
  have hadj2 := hadj _ hpk
  have hroute_adj : adjPairIn ((runWalk G s).1).route e.u e.v = true := by
    revert hadj2
    unfold pairKey
    by_cases hle : e.u ≤ e.v
    · rw [if_pos hle]
      exact id
    · rw [if_neg hle]
      intro h2
      rw [adjPairIn_swap]
      exact h2
  unfold generateSimpleRoute
  by_cases h1 : rts = true ∧ ((runWalk G s).1).current ≠ s
  · rw [if_pos h1]
    by_cases h2 : reachB G ((runWalk G s).1).current s = true
    · rw [if_pos h2]
      cases hsp : spath G ((runWalk G s).1).current s with
      | some p => exact adjPairIn_append _ _ _ _ hroute_adj
      | none => exact hroute_adj
    · rw [if_neg h2]
      exact hroute_adj
  · rw [if_neg h1]
    exact hroute_adj

/-- Witness for C2 at a concrete input: a connected 2-edge undirected
path graph, start node 1; both edges are traversed by the walk. -/
theorem C2_route_edge_coverage_witness :
    adjPairIn (generateSimpleRoute
      ⟨false, [(1, 0, 0), (2, 0, 0), (3, 0, 0)],
        [⟨1, 2, 0, ⟨1, "A", "residential", 0⟩⟩,
         ⟨2, 3, 0, ⟨1, "B", "residential", 0⟩⟩]⟩ 1 false) 1 2 = true ∧
    adjPairIn (generateSimpleRoute
      ⟨false, [(1, 0, 0), (2, 0, 0), (3, 0, 0)],
        [⟨1, 2, 0, ⟨1, "A", "residential", 0⟩⟩,
         ⟨2, 3, 0, ⟨1, "B", "residential", 0⟩⟩]⟩ 1 false) 2 3 = true := by
  constructor
  · exact C2_route_edge_coverage
      ⟨false, [(1, 0, 0), (2, 0, 0), (3, 0, 0)],
        [⟨1, 2, 0, ⟨1, "A", "residential", 0⟩⟩,
         ⟨2, 3, 0, ⟨1, "B", "residential", 0⟩⟩]⟩ 1 false rfl (by decide)
      (by decide) (by decide) ⟨1, 2, 0, ⟨1, "A", "residential", 0⟩⟩ (by decide)
  · exact C2_route_edge_coverage
      ⟨false, [(1, 0, 0), (2, 0, 0), (3, 0, 0)],
        [⟨1, 2, 0, ⟨1, "A", "residential", 0⟩⟩,
         ⟨2, 3, 0, ⟨1, "B", "residential", 0⟩⟩]⟩ 1 false rfl (by decide)
      (by decide) (by decide) ⟨2, 3, 0, ⟨1, "B", "residential", 0⟩⟩ (by decide)

/-! ## Route records (`routing.generate_route_for_zone`,
`generate_turn_by_turn`, `calculate_route_duration`) -/

/-- Embeds `find_nearest_node`: scan nodes tracking the minimum squared planar
distance; the first strictly-smaller distance wins (Python starts from
`inf`, so the first node always enters). -/
def findNearestNode (nodes : List (ℕ × ℚ × ℚ)) (p : ℚ × ℚ) : Option ℕ :=
  (nodes.foldl
    (fun acc n =>
      let dist := (n.2.1 - p.1) * (n.2.1 - p.1) + (n.2.2 - p.2) * (n.2.2 - p.2)
      match acc with
      | none => some (n.1, dist)
      | some (_, d) => if dist < d then some (n.1, dist) else acc)
    none).map (·.1)

/-- Start-node choice of `generate_route_for_zone` (lines 41–47): nearest
node to the supplied start point, else nearest node to the mean of the
node coordinates. -/
def selectStartNode (zone : PGraph) (startPoint : Option (ℚ × ℚ)) : Option ℕ :=
  match startPoint with
  | some p => findNearestNode zone.nodes p
  | none =>
    let lats := zone.nodes.map (·.2.1)
    let lngs := zone.nodes.map (·.2.2)
    findNearestNode zone.nodes
      (lats.sum / (lats.length : ℚ), lngs.sum / (lngs.length : ℚ))

/-- Reciprocal-merge of `MultiDiGraph.to_undirected()`: the directed
edges `(u, v, k)` and `(v, u, k)` denote the same undirected edge, so
later duplicates (same key, same unordered endpoints) are dropped. -/
def mergeReciprocal : List PEdge → List PEdge
  | [] => []
  | e :: rest =>
    e :: mergeReciprocal (rest.filter fun e2 =>
      !(e2.key = e.key &&
        ((e2.u = e.u && e2.v = e.v) || (e2.u = e.v && e2.v = e.u))))
termination_by es => es.length
decreasing_by
  simp only [List.length_cons]
  exact Nat.lt_succ_of_le (List.length_filter_le _ _)

/-- Embeds `zone.to_undirected()`: undirected view with reciprocal edges
merged. -/
def toUndirectedMerged (G : PGraph) : PGraph :=
  { directed := false, nodes := G.nodes, edges := mergeReciprocal G.edges }

/-- Embeds `zone.get_edge_data(u, v)` falling back to `(v, u)`, then the first
parallel key's data (`list(edge_data.keys())[0]`). -/
def firstEdgeData (zone : PGraph) (u v : ℕ) : Option EdgeData :=
  match zone.edges.filter fun e => e.u = u && e.v = v with
  | e :: _ => some e.data
  | [] =>
    match zone.edges.filter fun e => e.u = v && e.v = u with
    | e :: _ => some e.data
    | [] => none

/-- The distance accumulation of `generate_route_for_zone` (lines
63–77): for each consecutive pair with edge data, add the first key's
`length`. -/
def totalDistance (zone : PGraph) (route : List ℕ) : ℚ :=
  ((route.zip route.tail).filterMap fun q =>
    (firstEdgeData zone q.1 q.2).map (·.length)).sum

/-- One turn-by-turn step (the `step` field is 0 until renumbering). -/
structure TurnStep where
  instruction : String
  distance_m : ℚ
  street_name : String
  step : ℕ
  deriving DecidableEq, Repr

/-- The per-segment directions of `generate_turn_by_turn` before
merging: one step per consecutive pair that has edge data, "Start on"
for pair index 0, else "Continue on". -/
def turnSteps (zone : PGraph) (route : List ℕ) : List TurnStep :=
  (route.zip route.tail).enum.filterMap fun q =>
    (firstEdgeData zone q.2.1 q.2.2).map fun d =>
      { instruction :=
          if q.1 = 0 then "Start on " ++ d.name else "Continue on " ++ d.name
        distance_m := d.length
        street_name := d.name
        step := 0 }

/-- One step of the merge loop: absorb `d` into the last merged step
when the street names agree, otherwise append it. -/
def mergeStep (merged : List TurnStep) (d : TurnStep) : List TurnStep :=
  match merged.getLast? with
  | some last =>
    if last.street_name = d.street_name then
      merged.dropLast ++ [{ last with distance_m := last.distance_m + d.distance_m }]
    else merged ++ [d]
  | none => merged ++ [d]

/-- Merge consecutive steps that share a street name, summing distances
(`merged[-1]["distance_m"] += ...`). -/
def mergeSteps (dirs : List TurnStep) : List TurnStep :=
  dirs.foldl mergeStep []

/-- Renumber `step = 1..N` and rewrite non-first instructions to
"Turn onto <street>". -/
def renumberSteps (merged : List TurnStep) : List TurnStep :=
  merged.enum.map fun q =>
    { q.2 with
      step := q.1 + 1
      instruction :=
        if 0 < q.1 then "Turn onto " ++ q.2.street_name else q.2.instruction }

/-- Embeds `generate_turn_by_turn`. -/
def generateTurnByTurn (zone : PGraph) (route : List ℕ) : List TurnStep :=
  renumberSteps (mergeSteps (turnSteps zone route))

/-- Embeds `(lat, lng)` of a node (`zone.nodes[n]["y"], ["x"]`; total with a
default — the walk only ever visits nodes present in the zone). -/
def coordOf (zone : PGraph) (n : ℕ) : ℚ × ℚ :=
  match zone.nodes.find? fun nd => nd.1 = n with
  | some nd => (nd.2.1, nd.2.2)
  | none => (0, 0)

/-- The route record returned per zone. -/
structure RouteResult where
  waypoints : List (ℚ × ℚ)
  geometryType : String
  geometryCoords : List (ℚ × ℚ)
  total_distance_m : ℚ
  turn_by_turn : List TurnStep
  deriving DecidableEq, Repr

/-- Embeds `generate_route_for_zone`: empty-zone early return, start-node
selection, undirected projection for walking, the edge-cover walk,
waypoints/geometry/distance/turn-by-turn assembly. -/
def generateRouteForZone (zone : PGraph) (startPoint : Option (ℚ × ℚ))
    (returnToStart : Bool) (travelMode : String) : RouteResult :=
  if zone.edges.length = 0 then
    { waypoints := [], geometryType := "LineString", geometryCoords := [],
      total_distance_m := 0, turn_by_turn := [] }
  else
    let startNode := (selectStartNode zone startPoint).getD 0
    let gRoute := if travelMode = "walking" then toUndirectedMerged zone else zone
    let routeNodes := generateSimpleRoute gRoute startNode returnToStart
    let waypoints := routeNodes.map (coordOf zone)
    { waypoints := waypoints
      geometryType := "LineString"
      geometryCoords := waypoints.map fun p => (p.2, p.1)
      total_distance_m := totalDistance zone routeNodes
      turn_by_turn := generateTurnByTurn zone routeNodes }

/-- Embeds `calculate_route_duration` (exact arithmetic): minutes at 4 km/h
walking, 30 km/h driving. -/
def calculateRouteDuration (distanceM : ℚ) (travelMode : String) : ℚ :=
  let speedKmh : ℚ := if travelMode = "walking" then 4 else 30
  distanceM / 1000 / speedKmh * 60

/-- C10.  A zone with zero edges yields, without raising, a route
record with empty waypoints, a LineString geometry with empty
coordinates, total distance 0 and an empty turn-by-turn list. -/
theorem C10_empty_zone (zone : PGraph) (sp : Option (ℚ × ℚ)) (rts : Bool)
    (tm : String) (h : zone.edges = []) :
    generateRouteForZone zone sp rts tm =
      { waypoints := [], geometryType := "LineString", geometryCoords := [],
        total_distance_m := 0, turn_by_turn := [] } := by
  unfold generateRouteForZone
  rw [if_pos (by rw [h]; rfl)]

/-- Witness for C10 at a concrete input: the empty zone. -/
theorem C10_empty_zone_witness :
    generateRouteForZone ⟨true, [], []⟩ none false "walking" =
      { waypoints := [], geometryType := "LineString", geometryCoords := [],
        total_distance_m := 0, turn_by_turn := [] } :=
  C10_empty_zone ⟨true, [], []⟩ none false "walking" rfl

theorem walkLoop_route_prefix (G : PGraph) :
    ∀ f st, ∃ l, ((walkLoop G f st).1).route = st.route ++ l := by
  intro f
  induction f with
  | zero => intro st; exact ⟨[], (List.append_nil _).symm⟩
  | succ f ih =>
    intro st
    by_cases hc : st.visited.card < G.edges.length
    · cases hfil : (G.nbors st.current).filter
          (fun n => decide (pairKey st.current n ∉ st.visited)) with
      | cons next rest =>
        rw [walkLoop_branch_step G f st hc next rest hfil]
        obtain ⟨l, hl⟩ := ih ⟨st.route ++ [next],
          insert (pairKey st.current next) st.visited, next⟩
        exact ⟨[next] ++ l, by rw [hl]; simp⟩
      | nil =>
        cases hnwu : nodesWithUnvisited G st.visited with
        | nil =>
          rw [walkLoop_branch_done G f st hc hfil hnwu]
          exact ⟨[], (List.append_nil _).symm⟩
        | cons t0 ts =>
          cases hbb : bestBridge G st.current (t0 :: ts) with
          | some pt =>
            obtain ⟨p, t⟩ := pt
            rw [walkLoop_branch_bridge G f st hc hfil t0 ts hnwu p t hbb]
            obtain ⟨l, hl⟩ := ih ⟨st.route ++ p.drop 1, st.visited, t⟩
            exact ⟨p.drop 1 ++ l, by rw [hl]; simp⟩
          | none =>
            rw [walkLoop_branch_stuck G f st hc hfil t0 ts hnwu hbb]
            exact ⟨[], (List.append_nil _).symm⟩
    · rw [walkLoop_branch_covered G f st hc]
      exact ⟨[], (List.append_nil _).symm⟩

theorem generateSimpleRoute_head (G : PGraph) (s : ℕ) (rts : Bool) :
    (generateSimpleRoute G s rts).head? = some s := by
  obtain ⟨l, hl⟩ := walkLoop_route_prefix G (walkCap G) ⟨[s], ∅, s⟩
  have hrw : ((runWalk G s).1).route = [s] ++ l := hl
  unfold generateSimpleRoute
  by_cases h1 : rts = true ∧ ((runWalk G s).1).current ≠ s
  · rw [if_pos h1]
    by_cases h2 : reachB G ((runWalk G s).1).current s = true
    · rw [if_pos h2]
      cases hsp : spath G ((runWalk G s).1).current s with
      | some p =>
        rw [hrw]
        rfl
      | none =>
        rw [hrw]
        rfl
    · rw [if_neg h2]
      rw [hrw]
      rfl
  · rw [if_neg h1]
    rw [hrw]
    rfl

/-- C9 (implicit).  The walk returned by `generate_simple_route`
always begins at the start node; consequently, for every zone with at
least one edge, the route's first waypoint is the `(lat, lng)` of the
selected start node, regardless of `return_to_start` and
`travel_mode`. -/
theorem C9_route_starts_at_start (G : PGraph) (s : ℕ) (rts : Bool)
    (zone : PGraph) (sp : Option (ℚ × ℚ)) (tm : String)
    (hz : zone.edges ≠ []) :
    (generateSimpleRoute G s rts).head? = some s ∧
    (generateRouteForZone zone sp rts tm).waypoints.head? =
      some (coordOf zone ((selectStartNode zone sp).getD 0)) := by
  refine ⟨generateSimpleRoute_head G s rts, ?_⟩
  unfold generateRouteForZone
  rw [if_neg (fun h0 => hz (List.eq_nil_of_length_eq_zero h0))]
  show ((generateSimpleRoute
      (if tm = "walking" then toUndirectedMerged zone else zone)
      ((selectStartNode zone sp).getD 0) rts).map (coordOf zone)).head? = _
  rw [List.head?_map, generateSimpleRoute_head]
  rfl

/-- Witness for C9 at a concrete input: a one-node self-loop zone with a
supplied start point; the first waypoint is that node's coordinates. -/
theorem C9_route_starts_at_start_witness :
    (⟨true, [(1, 5, 7)], [⟨1, 1, 0, ⟨1, "A", "residential", 0⟩⟩]⟩ : PGraph).edges
      ≠ [] ∧
    (generateRouteForZone ⟨true, [(1, 5, 7)], [⟨1, 1, 0, ⟨1, "A", "residential", 0⟩⟩]⟩
      (some (0, 0)) false "walking").waypoints.head? =
      some (coordOf ⟨true, [(1, 5, 7)], [⟨1, 1, 0, ⟨1, "A", "residential", 0⟩⟩]⟩
        ((selectStartNode ⟨true, [(1, 5, 7)], [⟨1, 1, 0, ⟨1, "A", "residential", 0⟩⟩]⟩
          (some (0, 0))).getD 0)) :=
  ⟨by decide,
   (C9_route_starts_at_start ⟨true, [], []⟩ 0 false
     ⟨true, [(1, 5, 7)], [⟨1, 1, 0, ⟨1, "A", "residential", 0⟩⟩]⟩
     (some (0, 0)) "walking" (by decide)).2⟩

/-! ### Turn-by-turn merging lemmas (C6) -/

/-- The adjacent-difference relation on merged steps. -/
def stepNe (a b : TurnStep) : Prop := a.street_name ≠ b.street_name

theorem chain'_stepNe_iff (l : List TurnStep) :
    List.Chain' stepNe l ↔ List.Chain' Ne (l.map (·.street_name)) := by
  rw [List.chain'_map]
  rfl

theorem mergeStep_of_getLast_none (merged : List TurnStep) (d : TurnStep)
    (h : merged.getLast? = none) : mergeStep merged d = merged ++ [d] := by
  unfold mergeStep
  rw [h]

theorem mergeStep_of_getLast_some (merged : List TurnStep) (d last : TurnStep)
    (h : merged.getLast? = some last) :
    mergeStep merged d =
      if last.street_name = d.street_name then
        merged.dropLast ++ [({ last with distance_m := last.distance_m + d.distance_m } : TurnStep)]
      else merged ++ [d] := by
  unfold mergeStep
  rw [h]

theorem mergeSteps_fold (dirs : List TurnStep) :
    ∀ acc : List TurnStep, List.Chain' stepNe acc →
      List.Chain' stepNe (dirs.foldl mergeStep acc) ∧
      ((dirs.foldl mergeStep acc).map (·.distance_m)).sum
        = (acc.map (·.distance_m)).sum + (dirs.map (·.distance_m)).sum := by
  induction dirs with
  | nil =>
    intro acc hacc
    exact ⟨hacc, by simp⟩
  | cons d ds ih =>
    intro acc hacc
    simp only [List.foldl_cons]
    cases hlast : acc.getLast? with
    | none =>
      have hnil : acc = [] := by
        cases acc with
        | nil => rfl
        | cons a t =>
          rw [List.getLast?_eq_getLast (a :: t) (by simp)] at hlast
          exact Option.noConfusion hlast
      subst hnil
      rw [mergeStep_of_getLast_none [] d rfl]
      obtain ⟨h1, h2⟩ := ih ([] ++ [d]) (by
        rw [List.nil_append]
        exact List.chain'_singleton d)
      refine ⟨h1, ?_⟩
      rw [h2]
      simp
    | some last =>
      have hne2 : acc ≠ [] := by
        intro h0
        rw [h0] at hlast
        exact Option.noConfusion hlast
      have hdecomp : acc.dropLast ++ [last] = acc := by
        have h1 := List.dropLast_append_getLast hne2
        have h2 : acc.getLast hne2 = last := by
          rw [List.getLast?_eq_getLast acc hne2] at hlast
          exact Option.some.inj hlast
        rw [h2] at h1
        exact h1
      rw [mergeStep_of_getLast_some acc d last hlast]
      by_cases hstreet : last.street_name = d.street_name
      · rw [if_pos hstreet]
        have hstreets : (acc.dropLast ++
            [({ last with distance_m := last.distance_m + d.distance_m } : TurnStep)]).map
              (·.street_name) = acc.map (·.street_name) := by
          have e1 : ({ last with distance_m := last.distance_m + d.distance_m }
              : TurnStep).street_name = last.street_name := rfl
          conv_rhs => rw [← hdecomp]
          rw [List.map_append, List.map_append]
          simp only [List.map_cons, List.map_nil, e1]
        have hchain' : List.Chain' stepNe (acc.dropLast ++
            [({ last with distance_m := last.distance_m + d.distance_m } : TurnStep)]) := by
          rw [chain'_stepNe_iff, hstreets, ← chain'_stepNe_iff]
          exact hacc
        obtain ⟨h1, h2⟩ := ih _ hchain'
        refine ⟨h1, ?_⟩
        rw [h2]
        have hsum : ((acc.dropLast ++
            [({ last with distance_m := last.distance_m + d.distance_m } : TurnStep)]).map
              (·.distance_m)).sum
            = (acc.map (·.distance_m)).sum + d.distance_m := by
          have e2 : ({ last with distance_m := last.distance_m + d.distance_m }
              : TurnStep).distance_m = last.distance_m + d.distance_m := rfl
          conv_rhs => rw [← hdecomp]
          rw [List.map_append, List.map_append, List.sum_append, List.sum_append]
          simp only [List.map_cons, List.map_nil, List.sum_cons, List.sum_nil, e2]
          ring
        rw [hsum]
        simp only [List.map_cons, List.sum_cons]
        ring
      · rw [if_neg hstreet]
        have hchain' : List.Chain' stepNe (acc ++ [d]) := by
          rw [List.chain'_append]
          refine ⟨hacc, List.chain'_singleton d, ?_⟩
          intro x hx y hy
          have hx2 : acc.getLast? = some x := hx
          rw [hlast] at hx2
          have hxl : x = last := (Option.some.inj hx2).symm
          have hy2 : ([d] : List TurnStep).head? = some y := hy
          have hyd : y = d := (Option.some.inj hy2).symm
          rw [hxl, hyd]
          exact hstreet
        obtain ⟨h1, h2⟩ := ih _ hchain'
        refine ⟨h1, ?_⟩
        rw [h2]
        simp only [List.map_append, List.sum_append, List.map_cons,
          List.sum_cons, List.map_nil, List.sum_nil]
        ring

theorem enumFrom_map_snd {α β : Type} (g : α → β) :
    ∀ (n : ℕ) (l : List α),
      (List.enumFrom n l).map (fun q => g q.2) = l.map g := by
  intro n l
  induction l generalizing n with
  | nil => rfl
  | cons a t ih =>
    show (g a) :: ((List.enumFrom (n + 1) t).map fun q => g q.2) = g a :: t.map g
    rw [ih (n + 1)]

theorem renumberSteps_street (l : List TurnStep) :
    (renumberSteps l).map (·.street_name) = l.map (·.street_name) := by
  unfold renumberSteps
  rw [List.map_map]
  exact enumFrom_map_snd (fun d : TurnStep => d.street_name) 0 l

theorem renumberSteps_dist (l : List TurnStep) :
    (renumberSteps l).map (·.distance_m) = l.map (·.distance_m) := by
  unfold renumberSteps
  rw [List.map_map]
  exact enumFrom_map_snd (fun d : TurnStep => d.distance_m) 0 l

theorem turnSteps_sum (zone : PGraph) (route : List ℕ) :
    ((turnSteps zone route).map (·.distance_m)).sum = totalDistance zone route := by
  unfold turnSteps totalDistance
  suffices h : ∀ (n : ℕ) (l : List (ℕ × ℕ)),
      (((List.enumFrom n l).filterMap fun q =>
        (firstEdgeData zone q.2.1 q.2.2).map fun d =>
          ({ instruction :=
              if q.1 = 0 then "Start on " ++ d.name else "Continue on " ++ d.name
             distance_m := d.length
             street_name := d.name
             step := 0 } : TurnStep)).map (·.distance_m)).sum
      = (l.filterMap fun q => (firstEdgeData zone q.1 q.2).map (·.length)).sum by
    exact h 0 (route.zip route.tail)
  intro n l
  induction l generalizing n with
  | nil => rfl
  | cons q t ih =>
    show (((List.enumFrom n (q :: t)).filterMap _).map _).sum = _
    rw [show List.enumFrom n (q :: t) = (n, q) :: List.enumFrom (n + 1) t from rfl]
    rw [List.filterMap_cons, List.filterMap_cons]
    cases hfe : firstEdgeData zone q.1 q.2 with
    | some d =>
      simp only [Option.map_some']
      simp only [List.map_cons, List.sum_cons]
      rw [ih (n + 1)]
    | none =>
      simp only [Option.map_none']
      exact ih (n + 1)

theorem generateTurnByTurn_props (zone : PGraph) (route : List ℕ) :
    List.Chain' stepNe (generateTurnByTurn zone route) ∧
    ((generateTurnByTurn zone route).map (·.distance_m)).sum
      = totalDistance zone route := by
  unfold generateTurnByTurn
  obtain ⟨h1, h2⟩ := mergeSteps_fold (turnSteps zone route) [] List.chain'_nil
  constructor
  · rw [chain'_stepNe_iff, renumberSteps_street, ← chain'_stepNe_iff]
    exact h1
  · rw [renumberSteps_dist]
    have h3 : ((mergeSteps (turnSteps zone route)).map (·.distance_m)).sum
        = ((turnSteps zone route).map (·.distance_m)).sum := by
      unfold mergeSteps
      rw [h2]
      simp
    rw [h3, turnSteps_sum]

/-- C6 (turn-by-turn merging).  In every generated route record, no
two adjacent turn-by-turn steps share a street name, and the step
distances sum exactly (in exact arithmetic; the code's floats agree to
floating-point tolerance) to the route's `total_distance_m`. -/
theorem C6_turn_by_turn_merging (zone : PGraph) (sp : Option (ℚ × ℚ))
    (rts : Bool) (tm : String) :
    List.Chain' stepNe (generateRouteForZone zone sp rts tm).turn_by_turn ∧
    ((generateRouteForZone zone sp rts tm).turn_by_turn.map (·.distance_m)).sum
      = (generateRouteForZone zone sp rts tm).total_distance_m := by
  unfold generateRouteForZone
  by_cases h : zone.edges.length = 0
  · rw [if_pos h]
    exact ⟨List.chain'_nil, rfl⟩
  · rw [if_neg h]
    exact ⟨(generateTurnByTurn_props zone _).1, (generateTurnByTurn_props zone _).2⟩

end Leaflet
